import Mathlib

/-!
Verification of the log query engine of the irc-stats repository.

The development shallowly embeds the two query-engine backends
(`web/logs/inmemory_engine.py` and `web/logs/sqlite_engine.py`) over a
common data model.  Timestamps are natural numbers of Unix seconds and the
local-time calendar functions of Python (`datetime.fromtimestamp`,
`time.mktime`) and of SQLite (`strftime`, `unixepoch`, `date`) are modelled
by one UTC Gregorian calendar, given first.
-/

namespace IrcStats

/-- A civil (Gregorian) calendar date. -/
structure Date where
  year : Nat
  month : Nat
  day : Nat
deriving DecidableEq, Repr

@[simp] theorem Date.year_mk (a b c : Nat) : (Date.mk a b c).year = a := rfl

@[simp] theorem Date.month_mk (a b c : Nat) : (Date.mk a b c).month = b := rfl

@[simp] theorem Date.day_mk (a b c : Nat) : (Date.mk a b c).day = c := rfl

/-- Gregorian leap-year rule. -/
def isLeap (y : Nat) : Prop := y % 4 = 0 ∧ (y % 100 ≠ 0 ∨ y % 400 = 0)

instance (y : Nat) : Decidable (isLeap y) :=
  inferInstanceAs (Decidable (y % 4 = 0 ∧ (y % 100 ≠ 0 ∨ y % 400 = 0)))

/-- Length of a month in the Gregorian calendar. -/
def daysInMonth (y m : Nat) : Nat :=
  if m = 2 then (if isLeap y then 29 else 28)
  else if m = 4 ∨ m = 6 ∨ m = 9 ∨ m = 11 then 30
  else 31

/-- Length of a year. -/
def yearLength (y : Nat) : Nat := if isLeap y then 366 else 365

/-- The calendar successor of a date. -/
def nextDate (d : Date) : Date :=
  if d.day < daysInMonth d.year d.month then ⟨d.year, d.month, d.day + 1⟩
  else if d.month < 12 then ⟨d.year, d.month + 1, 1⟩
  else ⟨d.year + 1, 1, 1⟩

/-- Total days in months 1..m of year y. -/
def daysUpToMonth (y : Nat) : Nat → Nat
  | 0 => 0
  | m + 1 => daysUpToMonth y m + daysInMonth y (m + 1)

/-- Days in months [1, m) of year y. -/
def daysBeforeMonth (y m : Nat) : Nat := daysUpToMonth y (m - 1)

/-- Total days in years [1970, 1970+n). -/
def daysInYearsFrom1970 : Nat → Nat
  | 0 => 0
  | n + 1 => daysInYearsFrom1970 n + yearLength (1970 + n)

/-- Days in years [1970, y). -/
def daysBeforeYear (y : Nat) : Nat := daysInYearsFrom1970 (y - 1970)

/-- Days since 1970-01-01 of a civil date (model of `time.mktime` divided by
86400, for dates at or after the epoch). -/
def daysFromCivil (d : Date) : Nat :=
  daysBeforeYear d.year + daysBeforeMonth d.year d.month + d.day - 1

/-- Civil date of a day count since 1970-01-01 (model of
`datetime.datetime.fromtimestamp` / SQLite `'unixepoch'` day extraction). -/
def civilFromDays : Nat → Date
  | 0 => ⟨1970, 1, 1⟩
  | n + 1 => nextDate (civilFromDays n)

/-- A structurally well-formed date at or after the epoch. -/
def Date.Valid (d : Date) : Prop :=
  1970 ≤ d.year ∧ 1 ≤ d.month ∧ d.month ≤ 12 ∧ 1 ≤ d.day ∧ d.day ≤ daysInMonth d.year d.month

instance (d : Date) : Decidable d.Valid :=
  inferInstanceAs (Decidable (1970 ≤ d.year ∧ 1 ≤ d.month ∧ d.month ≤ 12 ∧ 1 ≤ d.day ∧
    d.day ≤ daysInMonth d.year d.month))

theorem one_le_daysInMonth (y m : Nat) : 1 ≤ daysInMonth y m := by
  unfold daysInMonth; split_ifs <;> omega

theorem daysBeforeMonth_succ (y m : Nat) (h : 1 ≤ m) :
    daysBeforeMonth y (m + 1) = daysBeforeMonth y m + daysInMonth y m := by
  unfold daysBeforeMonth
  obtain ⟨k, rfl⟩ : ∃ k, m = k + 1 := ⟨m - 1, by omega⟩
  simp [daysUpToMonth]

theorem daysBeforeMonth_13 (y : Nat) : daysBeforeMonth y 13 = yearLength y := by
  show daysUpToMonth y 12 = yearLength y
  by_cases h : isLeap y <;>
    simp [daysUpToMonth, daysInMonth, yearLength, h]

theorem daysBeforeYear_succ (y : Nat) (h : 1970 ≤ y) :
    daysBeforeYear (y + 1) = daysBeforeYear y + yearLength y := by
  unfold daysBeforeYear
  obtain ⟨k, hk⟩ : ∃ k, y = 1970 + k := ⟨y - 1970, by omega⟩
  subst hk
  rw [show 1970 + k + 1 - 1970 = k + 1 by omega, show 1970 + k - 1970 = k by omega]
  rfl

theorem nextDate_valid {d : Date} (h : d.Valid) : (nextDate d).Valid := by
  obtain ⟨h1, h2, h3, h4, h5⟩ := h
  unfold nextDate
  split_ifs with ha hb <;>
    refine ⟨?_, ?_, ?_, ?_, ?_⟩ <;>
    simp only [Date.year_mk, Date.month_mk, Date.day_mk] <;>
    first
      | omega
      | exact one_le_daysInMonth _ _

theorem daysFromCivil_next {d : Date} (h : d.Valid) :
    daysFromCivil (nextDate d) = daysFromCivil d + 1 := by
  obtain ⟨h1, h2, h3, h4, h5⟩ := h
  unfold nextDate daysFromCivil
  split_ifs with ha hb
  · simp only [Date.year_mk, Date.month_mk, Date.day_mk]
    omega
  · simp only [Date.year_mk, Date.month_mk, Date.day_mk]
    rw [daysBeforeMonth_succ _ _ h2]
    omega
  · simp only [Date.year_mk, Date.month_mk, Date.day_mk]
    have hm : d.month = 12 := by omega
    have hd : d.day = daysInMonth d.year d.month := by omega
    rw [hm] at hd
    rw [hm]
    rw [daysBeforeYear_succ _ h1]
    have h13 : daysBeforeMonth d.year 13 = yearLength d.year := daysBeforeMonth_13 d.year
    have h12 : daysBeforeMonth d.year 13 = daysBeforeMonth d.year 12 + daysInMonth d.year 12 :=
      daysBeforeMonth_succ _ _ (by omega)
    have hdm : daysInMonth d.year 12 = 31 := by simp [daysInMonth]
    have hb1 : daysBeforeMonth (d.year + 1) 1 = 0 := rfl
    omega

theorem civilFromDays_valid (z : Nat) : (civilFromDays z).Valid := by
  induction z with
  | zero => decide
  | succ n ih => exact nextDate_valid ih

theorem daysFromCivil_civilFromDays (z : Nat) :
    daysFromCivil (civilFromDays z) = z := by
  induction z with
  | zero => decide
  | succ n ih =>
    show daysFromCivil (nextDate (civilFromDays n)) = n + 1
    rw [daysFromCivil_next (civilFromDays_valid n), ih]

/-- Lexicographic strict order on dates. -/
def Date.lexLt (a b : Date) : Prop :=
  a.year < b.year ∨ (a.year = b.year ∧ (a.month < b.month ∨ (a.month = b.month ∧ a.day < b.day)))

instance (a b : Date) : Decidable (a.lexLt b) :=
  inferInstanceAs (Decidable (a.year < b.year ∨ (a.year = b.year ∧
    (a.month < b.month ∨ (a.month = b.month ∧ a.day < b.day)))))

/-- Non-strict lexicographic order on dates (Python tuple `<=`, SQL
`ORDER BY year, month, day`). -/
def Date.lexLe (a b : Date) : Prop := a.lexLt b ∨ a = b

instance (a b : Date) : Decidable (a.lexLe b) :=
  inferInstanceAs (Decidable (a.lexLt b ∨ a = b))

theorem daysUpToMonth_mono (y : Nat) {m1 m2 : Nat} (h : m1 ≤ m2) :
    daysUpToMonth y m1 ≤ daysUpToMonth y m2 := by
  induction m2 with
  | zero =>
    have h0 : m1 = 0 := by omega
    rw [h0]
  | succ n ih =>
    rcases Nat.lt_or_ge m1 (n + 1) with hlt | hge
    · have h2 : daysUpToMonth y (n + 1) = daysUpToMonth y n + daysInMonth y (n + 1) := rfl
      have h3 := ih (by omega)
      omega
    · have h2 : m1 = n + 1 := by omega
      rw [h2]

theorem daysBeforeMonth_mono (y : Nat) {m1 m2 : Nat} (h : m1 ≤ m2) :
    daysBeforeMonth y m1 ≤ daysBeforeMonth y m2 :=
  daysUpToMonth_mono y (by omega)

theorem daysBeforeYear_mono {y1 y2 : Nat} (h : y1 ≤ y2) :
    daysBeforeYear y1 ≤ daysBeforeYear y2 := by
  unfold daysBeforeYear
  have : ∀ k1 k2 : Nat, k1 ≤ k2 → daysInYearsFrom1970 k1 ≤ daysInYearsFrom1970 k2 := by
    intro k1 k2 hk
    induction k2 with
    | zero =>
      have h0 : k1 = 0 := by omega
      rw [h0]
    | succ n ih =>
      rcases Nat.lt_or_ge k1 (n + 1) with hlt | hge
      · have h2 : daysInYearsFrom1970 (n + 1) = daysInYearsFrom1970 n + yearLength (1970 + n) := rfl
        have h3 := ih (by omega)
        omega
      · have h2 : k1 = n + 1 := by omega
        rw [h2]
  exact this _ _ (by omega)

theorem daysFromCivil_lt_of_lexLt {a b : Date}
    (ha : a.Valid) (hb : b.Valid) (hl : a.lexLt b) :
    daysFromCivil a < daysFromCivil b := by
  obtain ⟨ha1, ha2, ha3, ha4, ha5⟩ := ha
  obtain ⟨hb1, hb2, hb3, hb4, hb5⟩ := hb
  unfold daysFromCivil
  have key : ∀ y m dd, 1 ≤ m → m ≤ 12 → 1 ≤ dd → dd ≤ daysInMonth y m →
      daysBeforeMonth y m + dd ≤ yearLength y := by
    intro y m dd hm1 hm2 hdd1 hdd2
    have hs : daysBeforeMonth y (m + 1) = daysBeforeMonth y m + daysInMonth y m :=
      daysBeforeMonth_succ _ _ hm1
    have hmono : daysBeforeMonth y (m + 1) ≤ daysBeforeMonth y 13 :=
      daysBeforeMonth_mono _ (by omega)
    have h13 := daysBeforeMonth_13 y
    omega
  rcases hl with hy | ⟨hy, hm | ⟨hm, hd⟩⟩
  · have hbound := key a.year a.month a.day ha2 ha3 ha4 ha5
    have hstep : daysBeforeYear (a.year + 1) = daysBeforeYear a.year + yearLength a.year :=
      daysBeforeYear_succ _ ha1
    have hmono : daysBeforeYear (a.year + 1) ≤ daysBeforeYear b.year :=
      daysBeforeYear_mono (by omega)
    omega
  · have hs : daysBeforeMonth b.year (a.month + 1) =
        daysBeforeMonth b.year a.month + daysInMonth b.year a.month :=
      daysBeforeMonth_succ _ _ ha2
    have hmono : daysBeforeMonth b.year (a.month + 1) ≤ daysBeforeMonth b.year b.month :=
      daysBeforeMonth_mono _ (by omega)
    rw [hy] at ha5 ⊢
    omega
  · rw [hy, hm]
    omega

theorem lexLt_trans {a b c : Date} (h1 : a.lexLt b) (h2 : b.lexLt c) : a.lexLt c := by
  simp only [Date.lexLt] at *
  rcases h1 with h | ⟨e1, h | ⟨e2, h⟩⟩ <;> rcases h2 with g | ⟨f1, g | ⟨f2, g⟩⟩ <;>
    first
      | exact Or.inl (by omega)
      | exact Or.inr ⟨by omega, Or.inl (by omega)⟩
      | exact Or.inr ⟨by omega, Or.inr ⟨by omega, by omega⟩⟩

theorem lexLt_irrefl (a : Date) : ¬ a.lexLt a := by
  intro h
  simp only [Date.lexLt] at h
  rcases h with h | ⟨e, h | ⟨f, h⟩⟩ <;> omega

theorem lexLt_trichotomy (a b : Date) : a.lexLt b ∨ a = b ∨ b.lexLt a := by
  obtain ⟨y1, m1, d1⟩ := a
  obtain ⟨y2, m2, d2⟩ := b
  simp only [Date.lexLt, Date.mk.injEq, Date.year_mk, Date.month_mk, Date.day_mk]
  rcases Nat.lt_trichotomy y1 y2 with h | h | h
  · exact Or.inl (Or.inl h)
  · rcases Nat.lt_trichotomy m1 m2 with g | g | g
    · exact Or.inl (Or.inr ⟨h, Or.inl g⟩)
    · rcases Nat.lt_trichotomy d1 d2 with k | k | k
      · exact Or.inl (Or.inr ⟨h, Or.inr ⟨g, k⟩⟩)
      · exact Or.inr (Or.inl ⟨h, g, k⟩)
      · exact Or.inr (Or.inr (Or.inr ⟨h.symm, Or.inr ⟨g.symm, k⟩⟩))
    · exact Or.inr (Or.inr (Or.inr ⟨h.symm, Or.inl g⟩))
  · exact Or.inr (Or.inr (Or.inl h))

theorem lexLt_nextDate {d : Date} (h : d.Valid) : d.lexLt (nextDate d) := by
  obtain ⟨h1, h2, h3, h4, h5⟩ := h
  unfold nextDate
  split_ifs with h6 h7 <;> simp [Date.lexLt]

theorem civilFromDays_lexLt {z1 z2 : Nat} (h : z1 < z2) :
    (civilFromDays z1).lexLt (civilFromDays z2) := by
  induction z2 with
  | zero => omega
  | succ n ih =>
    have hstep : (civilFromDays n).lexLt (civilFromDays (n + 1)) :=
      lexLt_nextDate (civilFromDays_valid n)
    rcases Nat.lt_or_ge z1 n with hlt | hge
    · exact lexLt_trans (ih hlt) hstep
    · have : z1 = n := by omega
      rw [this]
      exact hstep

theorem civilFromDays_injective {z1 z2 : Nat} (h : civilFromDays z1 = civilFromDays z2) :
    z1 = z2 := by
  have e1 := daysFromCivil_civilFromDays z1
  have e2 := daysFromCivil_civilFromDays z2
  rw [h] at e1
  omega

theorem civilFromDays_daysFromCivil {d : Date} (hv : d.Valid) :
    civilFromDays (daysFromCivil d) = d := by
  set e := civilFromDays (daysFromCivil d) with he
  have hev : e.Valid := civilFromDays_valid _
  have hde : daysFromCivil e = daysFromCivil d := daysFromCivil_civilFromDays _
  rcases lexLt_trichotomy e d with hl | heq | hl
  · have := daysFromCivil_lt_of_lexLt hev hv hl
    omega
  · exact heq
  · have := daysFromCivil_lt_of_lexLt hv hev hl
    omega

/-! ### Generic list helpers (model of Python `sorted`, slicing, dict key order) -/

/-- Remove elements equal to the previous kept one (model of the
`if key == last_key: continue` pattern). -/
def dedupConsecAux [DecidableEq α] (prev : α) : List α → List α
  | [] => []
  | x :: xs => if x = prev then dedupConsecAux prev xs else x :: dedupConsecAux x xs

def dedupConsec [DecidableEq α] : List α → List α
  | [] => []
  | x :: xs => x :: dedupConsecAux x xs

/-- Keep the first occurrence of each element (model of the first-insertion
order of distinct keys of a dict / of SQL `GROUP BY` keys). -/
def dedupFirst [DecidableEq α] : List α → List α
  | [] => []
  | x :: xs => x :: dedupFirst (xs.filter (fun y => decide (y ≠ x)))
  termination_by l => l.length
  decreasing_by simp only [List.length_cons]; exact Nat.lt_succ_of_le (List.length_filter_le _ _)

/-- Python slice `l[a:b]` for nonnegative bounds. -/
def pySlice (l : List α) (a b : Nat) : List α := (l.take b).drop a

/-- Python slice `l[-w:]` (for `w = 0` this is `l[0:]`, the whole list). -/
def pySliceLast (w : Nat) (l : List α) : List α :=
  if w = 0 then l else l.drop (l.length - w)

/-- Running prefix sums (model of the cumulative post-processing pass). -/
def prefixSums (acc : ℚ) : List ℚ → List ℚ
  | [] => []
  | y :: ys => (acc + y) :: prefixSums (acc + y) ys

/-! ### Event model and shared key computation -/

/-- A log entry: Unix timestamp (seconds), speaker nick, message text. -/
structure Line where
  ts : Nat
  nick : String
  message : String
deriving DecidableEq, Repr

/-- A compiled regular expression, abstracted as its `search` function
returning the span of the first match, if any.  Both engines compile the
same pattern (with the same case flag), so a fixed query is modelled by a
single value of this type; a pattern that fails to compile is modelled as
`none : Option Regex` wherever an engine calls the regex compiler. -/
def Regex := String → Option (Nat × Nat)

/-- `r.search(s) != None`. -/
def reMatches (r : Regex) (s : String) : Bool := (r s).isSome

/-- The speaker alias table `VALID_NICKS`.  Modelled from the spec: the
constants module that holds it is not under the sources; the spec describes
it as a fixed mapping from canonical speaker name to a set of lowercase
alias strings.  It is passed as an explicit association list. -/
def AliasTable := List (String × List String)

/-- `VALID_NICKS[n]`, when `n in VALID_NICKS`. -/
def lookupAliases (vn : AliasTable) (n : String) : Option (List String) :=
  (List.find? (fun p => decide (p.1 = n)) vn).map (fun p => p.2)

/-- The in-memory engine's nick filter:
`line['nick'].lower() in VALID_NICKS[nick]`, skipping everything for an
unknown nick; `nick = none` models the falsy `None` (no filter). -/
def pyNickOk (vn : AliasTable) (nick : Option String) (l : Line) : Bool :=
  match nick with
  | none => true
  | some n =>
    match lookupAliases vn n with
    | some aliases => aliases.contains l.nick.toLower
    | none => false

/-- Day number of a timestamp. -/
def dayOfTs (ts : Nat) : Nat := ts / 86400

/-- `datetime.datetime.fromtimestamp`, up to the time-of-day part. -/
def dateOfTs (ts : Nat) : Date := civilFromDays (dayOfTs ts)

/-- `time.mktime(datetime.datetime(d.year, d.month, d.day).timetuple())`. -/
def mkTime (d : Date) : Nat := 86400 * daysFromCivil d

/-- First day of the month of a date. -/
def monthStart (d : Date) : Date := ⟨d.year, d.month, 1⟩

/-- The in-memory engine's `get_key`: start of day, or of month if coarse. -/
def getKey (coarse : Bool) (ts : Nat) : Nat :=
  let d := dateOfTs ts
  mkTime ⟨d.year, d.month, if coarse then 1 else d.day⟩

/-! ### In-memory engine: `_query_logs_single` -/

/-- The per-key value of the `totals` dict after the scan loop: the number
of lines passing the nick filter whose key is `k` (`0` when the key is
absent, matching the `key in totals and totals[key]['y'] or 0` reads). -/
def totalAt (vn : AliasTable) (nick : Option String) (coarse : Bool)
    (logs : List Line) (k : Nat) : Nat :=
  (logs.filter (fun l => pyNickOk vn nick l && decide (getKey coarse l.ts = k))).length

/-- The per-key value of the `results` dict after the scan loop: lines that
also match the regex. -/
def matchedAt (vn : AliasTable) (nick : Option String) (coarse : Bool) (r : Regex)
    (logs : List Line) (k : Nat) : Nat :=
  (logs.filter (fun l =>
    pyNickOk vn nick l && decide (getKey coarse l.ts = k) && reMatches r l.message)).length

/-- The timestamps visited by the `while current_time <= end_time` loop
(step one day, keeping the time of day of the first entry). -/
def walkTimes (ts0 tsN : Nat) : List Nat :=
  if ts0 ≤ tsN then (List.range ((tsN - ts0) / 86400 + 1)).map (fun i => ts0 + 86400 * i)
  else []

inductive NormalizeType where
  /-- `normalize_type` is `None` (or any string without the
  `trailing_avg_` prefix). -/
  | default
  /-- `normalize_type = "trailing_avg_<w>"`. -/
  | trailingAvg (w : Nat)
deriving DecidableEq, Repr

def windowOf : NormalizeType → Option Nat
  | .default => none
  | .trailingAvg w => some w

/-- Python `l[-w:]` as used on the normalization windows: the last element
for the default mode, the last `w` elements for `trailing_avg_w`. -/
def applyWindow (w : Option Nat) (l : List ℚ) : List ℚ :=
  match w with
  | some ws => pySliceLast ws l
  | none => pySliceLast 1 l

/-- The day-walk loop: for each visited key, the stored `smoothed` value
(running matched sum when cumulative, else the key's own matched count)
paired with the running total (the value the loop writes into
`totals[key]` in cumulative mode). -/
def walkSeries (cumulative : Bool) (mc tc : Nat → Nat) :
    List Nat → Nat → Nat → List ((Nat × Nat) × Nat)
  | [], _, _ => []
  | k :: ks, tm, tp =>
    let tm2 := tm + mc k
    let tp2 := tp + tc k
    ((k, if cumulative then tm2 else mc k), tp2) :: walkSeries cumulative mc tc ks tm2 tp2

/-- The key sequence visited by the day-walk loop, consecutive duplicates
dropped. -/
def inMemoryWalkKeys (coarse : Bool) (logs : List Line) : List Nat :=
  match logs with
  | [] => []
  | l0 :: _ => dedupConsec ((walkTimes l0.ts (logs.getLastD l0).ts).map (getKey coarse))

/-- The normalization loop over `smoothed` in insertion order, carrying the
two windows. -/
def normalizeSeries (cumulative : Bool) (w : Option Nat) (tc : Nat → Nat) :
    List ((Nat × Nat) × Nat) → List ℚ → List ℚ → List (Nat × ℚ)
  | [], _, _ => []
  | ((k, y), ct) :: rest, tw, mw =>
    let tval : ℚ := if cumulative then (ct : ℚ) else (tc k : ℚ)
    let tw2 := applyWindow w (tw ++ [tval])
    let mw2 := applyWindow w (mw ++ [(y : ℚ)])
    let y2 : ℚ :=
      if cumulative then (if (ct : ℚ) = 0 then 0 else (y : ℚ) / (ct : ℚ))
      else (if tw2.sum = 0 then 0 else mw2.sum / tw2.sum)
    (k, y2) :: normalizeSeries cumulative w tc rest tw2 mw2

/-- The `smoothed`/`totals` entries produced by the day walk. -/
def inMemoryEntries (vn : AliasTable) (nick : Option String) (r : Regex)
    (cumulative coarse : Bool) (logs : List Line) : List ((Nat × Nat) × Nat) :=
  walkSeries cumulative (matchedAt vn nick coarse r logs) (totalAt vn nick coarse logs)
    (inMemoryWalkKeys coarse logs) 0 0

/-- The series before the final `sorted(...)` call. -/
def inMemorySeries (vn : AliasTable) (r : Regex) (cumulative coarse : Bool)
    (nick : Option String) (normalize : Bool) (nt : NormalizeType)
    (logs : List Line) : List (Nat × ℚ) :=
  let entries := inMemoryEntries vn nick r cumulative coarse logs
  let totalMatched :=
    ((inMemoryWalkKeys coarse logs).map (matchedAt vn nick coarse r logs)).sum
  if normalize ∧ 0 < totalMatched then
    normalizeSeries cumulative (windowOf nt) (totalAt vn nick coarse logs) entries [] []
  else
    entries.map (fun e => (e.1.1, (e.1.2 : ℚ)))

/-- `InMemoryLogQueryEngine._query_logs_single`. -/
def inMemoryQueryLogsSingle (vn : AliasTable) (compiled : Option Regex)
    (cumulative coarse : Bool) (nick : Option String) (normalize : Bool)
    (nt : NormalizeType) (logs : List Line) : List (Nat × ℚ) :=
  match compiled with
  | none => []
  | some r =>
    match logs with
    | [] => []
    | _ :: _ =>
      List.insertionSort (fun a b => a.1 ≤ b.1)
        (inMemorySeries vn r cumulative coarse nick normalize nt logs)

/-- `InMemoryLogQueryEngine._count_occurrences_single`. -/
def inMemoryCountSingle (vn : AliasTable) (compiled : Option Regex)
    (nick : Option String) (logs : List Line) : Nat :=
  match compiled with
  | none => 0
  | some r => (logs.filter (fun l => pyNickOk vn nick l && reMatches r l.message)).length

/-! ### In-memory engine: days, search, trending -/

/-- Append a line under its day key, preserving dict insertion order
(`_get_all_logs_by_day`). -/
def upsertDay (d : Date) (l : Line) : List (Date × List Line) → List (Date × List Line)
  | [] => [(d, [l])]
  | (d2, ls) :: rest =>
    if d2 = d then (d2, ls ++ [l]) :: rest else (d2, ls) :: upsertDay d l rest

/-- `_get_all_logs_by_day`: day-keyed index in first-insertion key order,
each day's list in original order. -/
def logsByDay (logs : List Line) : List (Date × List Line) :=
  logs.foldl (fun acc l => upsertDay (dateOfTs l.ts) l acc) []

/-- `InMemoryLogQueryEngine.get_valid_days`. -/
def inMemoryValidDays (logs : List Line) : List Date :=
  List.insertionSort Date.lexLe ((logsByDay logs).map (fun p => p.1))

/-- `InMemoryLogQueryEngine.get_logs_by_day`. -/
def inMemoryGetLogsByDay (logs : List Line) (y m d : Nat) :
    List Line × Option Date × Option Date :=
  let valid := inMemoryValidDays logs
  let target : Date := ⟨y, m, d⟩
  let idx? := valid.findIdx? (fun x => decide (x = target))
  let prev := match idx? with
    | some i => if 0 < i then valid[i-1]? else none
    | none => none
  let next := match idx? with
    | some i => valid[i+1]?
    | none => none
  (logs.filter (fun l => decide (dateOfTs l.ts = target)), prev, next)

/-- One search hit `(day_tuple, index, line, m.start(), m.end())`. -/
def searchMatch (r : Regex) (d : Date) (i : Nat) (l : Line) :
    Option (Date × Nat × Line × Nat × Nat) :=
  (r l.message).map (fun se => (d, i, l, se.1, se.2))

/-- The full (pre-pagination) result list of
`InMemoryLogQueryEngine.search_day_logs`: days in reverse sorted order,
lines of a day in stored order, `index` counting all lines of the day. -/
def inMemorySearchAll (r : Regex) (logs : List Line) :
    List (Date × Nat × Line × Nat × Nat) :=
  ((List.insertionSort Date.lexLe ((logsByDay logs).map (fun p => p.1))).reverse).flatMap (fun d =>
    match (logsByDay logs).find? (fun p => decide (p.1 = d)) with
    | some p => p.2.enum.filterMap (fun il => searchMatch r d il.1 il.2)
    | none => [])

/-- `InMemoryLogQueryEngine.search_day_logs` with pagination. -/
def inMemorySearchDayLogs (compiled : Option Regex) (limit offset : Option Nat)
    (logs : List Line) : List (Date × Nat × Line × Nat × Nat) × Nat :=
  match compiled with
  | none => ([], 0)
  | some r =>
    let results := inMemorySearchAll r logs
    let off := offset.getD 0
    let page := match limit with
      | none => results.drop off
      | some lim => pySlice results off (off + lim)
    (page, results.length)

/-- `re.sub(r'^[.?!,"\']+|[.?!,"\']+$', '', word)`. -/
def stripPunct (s : String) : String :=
  let punct : List Char := ['.', '?', '!', ',', '"', '\'']
  String.mk (((s.toList.dropWhile punct.contains).reverse.dropWhile punct.contains).reverse)

/-- `str.split(' ')`, written on the character list so it computes by
kernel reduction (same semantics as `String.splitOn \" \"`). -/
def splitSpaceAux : List Char → List Char → List String
  | [], acc => [String.mk acc.reverse]
  | c :: cs, acc =>
    if c = ' ' then String.mk acc.reverse :: splitSpaceAux cs []
    else splitSpaceAux cs (c :: acc)

def pySplitSpace (s : String) : List String := splitSpaceAux s.toList []

/-- `str.lower()`, written on the character list (same semantics as
`String.toLower`, which maps `Char.toLower` over the string). -/
def pyLower (s : String) : String := String.mk (s.toList.map Char.toLower)

/-- Tokenization of `word_freqs`: split on single spaces, strip
leading/trailing punctuation, lowercase (empty tokens are counted too,
as in the source). -/
def pyWordsOf (msg : String) : List String :=
  (pySplitSpace msg).map (fun w => pyLower (stripPunct w))

def wordsOfLogs (logs : List Line) : List String :=
  logs.flatMap (fun l => pyWordsOf l.message)

/-- Number of occurrences of `w` (the value `freqs[w]`, `0` if absent). -/
def freqCount (ws : List String) (w : String) : Nat :=
  (ws.filter (fun x => decide (x = w))).length

/-- `slice_logs`: keep lines with `now <= ts + lookback_seconds`. -/
def sliceLogs (now lookback : Nat) (logs : List Line) : List Line :=
  logs.filter (fun l => decide (now ≤ l.ts + lookback))

/-- `InMemoryLogQueryEngine.get_trending`; `now` is the wall-clock
`time.time()` read by `slice_logs`. -/
def inMemoryGetTrending (now top minFreq lookbackDays : Nat) (logs : List Line) :
    List (String × ℚ) :=
  let allWs := wordsOfLogs logs
  let recentWs := wordsOfLogs (sliceLogs now (lookbackDays * 24 * 60 * 60) logs)
  let allTotal : ℚ := (allWs.length : ℚ) + 1
  let recentTotal : ℚ := (recentWs.length : ℚ) + 1
  let look := fun (ws : List String) (total : ℚ) (w : String) =>
    if 0 < freqCount ws w then (freqCount ws w : ℚ) / total else 1 / total
  let diffs := (dedupFirst allWs).filterMap (fun w =>
    let rv := look recentWs recentTotal w
    if rv < (minFreq : ℚ) / recentTotal then none
    else
      let av := look allWs allTotal w
      some (w, (rv - av) / av))
  ((List.insertionSort (fun a b : String × ℚ => a.2 ≤ b.2) diffs).reverse).take top

/-! ### SQLite engine -/

/-- Error detection of `_prepare_sql_filters`: invalid regex, unknown nick,
or a nick with no aliases. -/
def sqliteFilterError (vn : AliasTable) (compiled : Option Regex)
    (nick : Option String) : Bool :=
  match compiled with
  | none => true
  | some _ =>
    match nick with
    | none => false
    | some n =>
      match lookupAliases vn n with
      | some aliases => decide (aliases = [])
      | none => true

/-- The SQL nick condition `lower(nick) IN (lowered aliases)`. -/
def sqliteNickOk (vn : AliasTable) (nick : Option String) (l : Line) : Bool :=
  match nick with
  | none => true
  | some n =>
    match lookupAliases vn n with
    | some aliases => (aliases.map String.toLower).contains l.nick.toLower
    | none => false

def sqliteMinDay (logs : List Line) : Nat :=
  ((logs.map (fun l => dayOfTs l.ts)).min?).getD 0

def sqliteMaxDay (logs : List Line) : Nat :=
  ((logs.map (fun l => dayOfTs l.ts)).max?).getD 0

/-- The `all_days` spine: every day number from the corpus's earliest to its
latest day (empty for an empty corpus, whose seed row is `NULL` and is
discarded by the `year is not None` filter). -/
def sqliteSpine (logs : List Line) : List Nat :=
  match logs with
  | [] => []
  | _ :: _ => List.range' (sqliteMinDay logs) (sqliteMaxDay logs - sqliteMinDay logs + 1)

/-- The `(year, month, day-or-1)` group key of a spine day. -/
def sqliteKeyDate (coarse : Bool) (n : Nat) : Date :=
  let d := civilFromDays n
  ⟨d.year, d.month, if coarse then 1 else d.day⟩

/-- The `GROUP BY`/`ORDER BY` key list of `matches`: distinct group keys of
the spine, ordered ascending. -/
def sqliteGroupDates (coarse : Bool) (logs : List Line) : List Date :=
  List.insertionSort Date.lexLe (dedupFirst ((sqliteSpine logs).map (sqliteKeyDate coarse)))

/-- The aggregated `count` of a group: each log line joins exactly the spine
day carrying its own `(year, month, day)` (the calendar map is injective on
day numbers), so a group's sum counts the lines whose key equals the group
key and which pass the regex and nick conditions. -/
def sqliteMatchCount (vn : AliasTable) (nick : Option String) (r : Regex)
    (coarse : Bool) (logs : List Line) (dt : Date) : Nat :=
  (logs.filter (fun l => decide (sqliteKeyDate coarse (dayOfTs l.ts) = dt) &&
    reMatches r l.message && sqliteNickOk vn nick l)).length

/-- The `totals` CTE value joined to a group: per-key line count under the
nick filter (from `totals_fine`), `0` when no row joins. -/
def sqliteTotalCount (vn : AliasTable) (nick : Option String) (coarse : Bool)
    (logs : List Line) (dt : Date) : Nat :=
  (logs.filter (fun l => decide (sqliteKeyDate coarse (dayOfTs l.ts) = dt) &&
    sqliteNickOk vn nick l)).length

/-- `SUM(...) OVER (ROWS (w-1) PRECEDING)` at row `i` of a column. -/
def windowSumAt (w : Nat) (l : List ℚ) (i : Nat) : ℚ :=
  ((l.take (i + 1)).drop (i + 1 - w)).sum

/-- The per-group counts column of the `matches` CTE. -/
def sqliteCnts (vn : AliasTable) (nick : Option String) (r : Regex) (coarse : Bool)
    (logs : List Line) : List ℚ :=
  (sqliteGroupDates coarse logs).map
    (fun dt => (sqliteMatchCount vn nick r coarse logs dt : ℚ))

/-- The `count` column of the fetched rows, per normalization variant;
`none` models an uncaught `sqlite3` error (the only case being
`trailing_avg_0`, whose generated frame `ROWS -1 PRECEDING` is a SQL syntax
error raised to the caller). -/
def sqliteYs (vn : AliasTable) (nick : Option String) (r : Regex) (coarse : Bool)
    (normalize : Bool) (nt : NormalizeType) (logs : List Line) : Option (List ℚ) :=
  let cnts := sqliteCnts vn nick r coarse logs
  if normalize then
    match nt with
    | .default => some (cnts.map (fun c => c / (logs.length : ℚ)))
    | .trailingAvg w =>
      if w = 0 then none
      else
        let tots : List ℚ := (sqliteGroupDates coarse logs).map
          (fun dt => (sqliteTotalCount vn nick coarse logs dt : ℚ))
        some ((List.range (sqliteGroupDates coarse logs).length).map (fun i =>
          let den := windowSumAt w tots i
          if den = 0 then 0 else windowSumAt w cnts i / den))
  else some cnts

/-- `SQLiteLogQueryEngine._query_logs_single`. -/
def sqliteQueryLogsSingle (vn : AliasTable) (compiled : Option Regex)
    (cumulative coarse : Bool) (nick : Option String) (normalize : Bool)
    (nt : NormalizeType) (logs : List Line) : Option (List (Nat × ℚ)) :=
  if sqliteFilterError vn compiled nick then some [] else
  match compiled with
  | none => some []
  | some r =>
    match sqliteYs vn nick r coarse normalize nt logs with
    | none => none
    | some ys =>
      some (((sqliteGroupDates coarse logs).map mkTime).zip
        (if cumulative then prefixSums 0 ys else ys))

/-- `SQLiteLogQueryEngine.get_valid_days`. -/
def sqliteValidDays (logs : List Line) : List Date :=
  List.insertionSort Date.lexLe (dedupFirst (logs.map (fun l => dateOfTs l.ts)))

/-- `SQLiteLogQueryEngine.get_logs_by_day` (day logs ordered by timestamp). -/
def sqliteGetLogsByDay (logs : List Line) (y m d : Nat) :
    List Line × Option Date × Option Date :=
  let valid := sqliteValidDays logs
  let target : Date := ⟨y, m, d⟩
  let idx? := valid.findIdx? (fun x => decide (x = target))
  let prev := match idx? with
    | some i => if 0 < i then valid[i-1]? else none
    | none => none
  let next := match idx? with
    | some i => valid[i+1]?
    | none => none
  (List.insertionSort (fun a b : Line => a.ts ≤ b.ts)
    (logs.filter (fun l => decide (dateOfTs l.ts = target))), prev, next)

/-- `SQLiteLogQueryEngine.search_day_logs`: matching rows, deduplicated by
`GROUP BY`, ordered by timestamp descending; `day_index` is the rank of the
row among its day's rows by ascending timestamp (`ROW_NUMBER() - 1`).
SQLite leaves tie order unspecified; ties are modelled stably. -/
def sqliteSearchDayLogs (compiled : Option Regex) (logs : List Line) :
    List (Date × Nat × Line × Nat × Nat) :=
  match compiled with
  | none => []
  | some r =>
    let pool := dedupFirst (logs.filter (fun l => reMatches r l.message))
    let sorted := List.insertionSort (fun a b : Line => b.ts ≤ a.ts) pool
    sorted.map (fun l =>
      let sameDay := List.insertionSort (fun a b : Line => a.ts ≤ b.ts)
        (pool.filter (fun l2 => decide (dateOfTs l2.ts = dateOfTs l.ts)))
      let se := (r l.message).getD (0, 0)
      (dateOfTs l.ts, sameDay.findIdx (fun x => decide (x = l)), l, se.1, se.2))

/-- SQL word tokenization of the `Words` table: split on single spaces,
`LOWER(TRIM(word))`, dropping empty tokens (no punctuation stripping). -/
def sqlTrim (s : String) : String :=
  String.mk (((s.toList.dropWhile (fun c => c = ' ')).reverse.dropWhile
    (fun c => c = ' ')).reverse)

def sqlWordsOf (msg : String) : List String :=
  ((pySplitSpace msg).map (fun w => pyLower (sqlTrim w))).filter (fun w => decide (w ≠ ""))

/-- The `Words` table source: the 1000 most recent lines (ties modelled
stably). -/
def sqliteWordsSource (logs : List Line) : List Line :=
  (List.insertionSort (fun a b : Line => b.ts ≤ a.ts) logs).take 1000

/-- Day number of the corpus's most recent line. -/
def sqliteLatestDay (logs : List Line) : Nat :=
  dayOfTs (((logs.map (fun l => l.ts)).max?).getD 0)

/-- The lookback condition `date(row) >= date(latest_day, '-L day')`,
expressed on day numbers. -/
def sqliteRecentLine (logs : List Line) (lookbackDays : Nat) (l : Line) : Bool :=
  decide (sqliteLatestDay logs ≤ dayOfTs l.ts + lookbackDays)

/-- `SQLiteLogQueryEngine.get_trending`: every distinct word of the recent
window of the `Words` source (each such word also has an `AllWords` row, so
the inner join keeps it) with raw recent frequency at least `min_freq`,
scored by relative rate difference, ordered descending, top `top`. -/
def sqliteGetTrending (top minFreq lookbackDays : Nat) (logs : List Line) :
    List (String × ℚ) :=
  let src := sqliteWordsSource logs
  let allWs := src.flatMap (fun l => sqlWordsOf l.message)
  let recentWs := (src.filter (sqliteRecentLine logs lookbackDays)).flatMap
    (fun l => sqlWordsOf l.message)
  let rows := (dedupFirst recentWs).filterMap (fun w =>
    if minFreq ≤ freqCount recentWs w then
      let allRate := (freqCount allWs w : ℚ) / (allWs.length : ℚ)
      let recentRate := (freqCount recentWs w : ℚ) / (recentWs.length : ℚ)
      some (w, (recentRate - allRate) / allRate)
    else none)
  (List.insertionSort (fun a b : String × ℚ => b.2 ≤ a.2) rows).take top

/-! ### Public wrappers -/

/-- `sorted(VALID_NICKS.keys())`. -/
def sortedNicks (vn : AliasTable) : List String :=
  List.insertionSort (fun a b : String => a ≤ b) (vn.map (fun p => p.1))

/-- Series label for nick-split queries. -/
def seriesLabel (lab n : String) : String := if lab = "" then n else lab ++ " - " ++ n

/-- `InMemoryLogQueryEngine.query_logs`. -/
def inMemoryQueryLogs (vn : AliasTable) (queries : List (String × Option Regex))
    (nickSplit cumulative coarse normalize : Bool) (nt : NormalizeType)
    (logs : List Line) : List (String × List (Nat × ℚ)) :=
  if nickSplit then
    queries.flatMap (fun q => (sortedNicks vn).map (fun n =>
      (seriesLabel q.1 n,
       inMemoryQueryLogsSingle vn q.2 cumulative coarse (some n) normalize nt logs)))
  else
    queries.map (fun q =>
      (q.1, inMemoryQueryLogsSingle vn q.2 cumulative coarse none normalize nt logs))

/-- `SQLiteLogQueryEngine.query_logs` (an uncaught store error in any
single query propagates). -/
def sqliteQueryLogs (vn : AliasTable) (queries : List (String × Option Regex))
    (nickSplit cumulative coarse normalize : Bool) (nt : NormalizeType)
    (logs : List Line) : Option (List (String × List (Nat × ℚ))) :=
  (if nickSplit then
    queries.flatMap (fun q => (sortedNicks vn).map (fun n => (seriesLabel q.1 n, q.2, some n)))
  else
    queries.map (fun q => (q.1, q.2, (none : Option String)))).mapM
    (fun t => (sqliteQueryLogsSingle vn t.2.1 cumulative coarse t.2.2 normalize nt logs).map
      (fun v => (t.1, v)))

/-- `InMemoryLogQueryEngine.count_occurrences`: header row and data rows
`(label, total, per-nick counts)`. -/
def inMemoryCountOccurrences (vn : AliasTable) (queries : List (String × Option Regex))
    (nickSplit orderByTotal : Bool) (logs : List Line) :
    List String × List (String × Nat × List Nat) :=
  let header := "" :: "Total" :: (if nickSplit then sortedNicks vn else [])
  let tmp := queries.map (fun q =>
    (q.1, inMemoryCountSingle vn q.2 none logs,
     if nickSplit then (sortedNicks vn).map (fun n => inMemoryCountSingle vn q.2 (some n) logs)
     else []))
  (header, if orderByTotal then List.insertionSort (fun a b : String × Nat × List Nat => b.2.1 ≤ a.2.1) tmp else tmp)

/-- A per-nick match count of the SQLite batched `count_occurrences`
(`INNER JOIN valid_nicks ON LOWER(logs.nick) = LOWER(valid_nicks.alias)`). -/
def sqliteNickMatchCount (vn : AliasTable) (r : Regex) (n : String)
    (logs : List Line) : Nat :=
  (logs.filter (fun l =>
    ((((lookupAliases vn n).getD []).map String.toLower).contains l.nick.toLower) &&
    reMatches r l.message)).length

/-- `SQLiteLogQueryEngine._count_occurrences`: all patterns are batched in
one SQL statement; if any pattern is invalid the statement raises
`OperationalError`, which is caught and the whole call returns the scalar
`0` — modelled as `none`. -/
def sqliteCountOccurrences (vn : AliasTable) (queries : List (String × Option Regex))
    (nickSplit orderByTotal : Bool) (logs : List Line) :
    Option (List String × List (String × Nat × List Nat)) :=
  if queries.any (fun q => q.2.isNone) then none
  else
    let header := "" :: "Total" :: (if nickSplit then sortedNicks vn else [])
    let tmp := queries.map (fun q =>
      match q.2 with
      | some r =>
        if nickSplit then
          (q.1, ((vn.map (fun p => p.1)).map (fun n => sqliteNickMatchCount vn r n logs)).sum,
           (sortedNicks vn).map (fun n => sqliteNickMatchCount vn r n logs))
        else
          (q.1, (logs.filter (fun l => reMatches r l.message)).length, [])
      | none => (q.1, 0, []))
    some (header, if orderByTotal then List.insertionSort (fun a b : String × Nat × List Nat => b.2.1 ≤ a.2.1) tmp else tmp)

/-! ### Order instances and basic list lemmas -/

instance : IsTotal Date Date.lexLe :=
  ⟨fun a b => by
    rcases lexLt_trichotomy a b with h | h | h
    · exact Or.inl (Or.inl h)
    · exact Or.inl (Or.inr h)
    · exact Or.inr (Or.inl h)⟩

instance : IsTrans Date Date.lexLe :=
  ⟨fun a b c hab hbc => by
    rcases hab with hab | rfl
    · rcases hbc with hbc | rfl
      · exact Or.inl (lexLt_trans hab hbc)
      · exact Or.inl hab
    · exact hbc⟩

theorem lexLt_of_lexLe_ne {a b : Date} (h : a.lexLe b) (hne : a ≠ b) : a.lexLt b := by
  rcases h with h | rfl
  · exact h
  · exact absurd rfl hne

theorem lexLe_antisymm {a b : Date} (h1 : a.lexLe b) (h2 : b.lexLe a) : a = b := by
  rcases h1 with h1 | rfl
  · rcases h2 with h2 | rfl
    · exact absurd (lexLt_trans h1 h2) (lexLt_irrefl a)
    · rfl
  · rfl

theorem dedupConsecAux_chain {prev : Nat} {l : List Nat}
    (h : List.Chain (· ≤ ·) prev l) :
    List.Chain (· < ·) prev (dedupConsecAux prev l) := by
  induction l generalizing prev with
  | nil => exact List.Chain.nil
  | cons y ys ih =>
    rcases List.chain_cons.mp h with ⟨hpy, hys⟩
    unfold dedupConsecAux
    split_ifs with heq
    · exact ih (heq ▸ hys)
    · exact List.Chain.cons (by omega) (ih hys)

theorem dedupConsec_chain {l : List Nat} (h : List.Chain' (· ≤ ·) l) :
    List.Chain' (· < ·) (dedupConsec l) := by
  cases l with
  | nil => exact trivial
  | cons x xs => exact dedupConsecAux_chain h

theorem dedupConsecAux_eq_self {prev : Nat} {l : List Nat}
    (h : List.Chain (· < ·) prev l) : dedupConsecAux prev l = l := by
  induction l generalizing prev with
  | nil => rfl
  | cons y ys ih =>
    rcases List.chain_cons.mp h with ⟨hpy, hys⟩
    unfold dedupConsecAux
    rw [if_neg (by omega), ih hys]

theorem dedupConsec_eq_self {l : List Nat} (h : List.Chain' (· < ·) l) :
    dedupConsec l = l := by
  cases l with
  | nil => rfl
  | cons x xs =>
    show x :: dedupConsecAux x xs = x :: xs
    rw [dedupConsecAux_eq_self h]

theorem mem_dedupFirst [DecidableEq α] {l : List α} {a : α} :
    a ∈ dedupFirst l ↔ a ∈ l := by
  induction l using dedupFirst.induct with
  | case1 => simp [dedupFirst]
  | case2 x xs ih =>
    rw [dedupFirst]
    constructor
    · intro h
      rcases List.mem_cons.mp h with rfl | h
      · exact List.mem_cons_self _ _
      · have := ih.mp h
        exact List.mem_cons_of_mem _ (List.mem_of_mem_filter this)
    · intro h
      rcases List.mem_cons.mp h with rfl | h
      · exact List.mem_cons_self _ _
      · by_cases hx : a = x
        · exact hx ▸ List.mem_cons_self _ _
        · exact List.mem_cons_of_mem _ (ih.mpr (List.mem_filter.mpr ⟨h, by simpa using hx⟩))

theorem dedupFirst_nodup [DecidableEq α] (l : List α) : (dedupFirst l).Nodup := by
  induction l using dedupFirst.induct with
  | case1 => simp [dedupFirst]
  | case2 x xs ih =>
    rw [dedupFirst]
    refine List.nodup_cons.mpr ⟨fun hmem => ?_, ih⟩
    have := mem_dedupFirst.mp hmem
    have := List.of_mem_filter this
    simp at this

/-! ### Key computation lemmas -/

theorem monthStart_valid {d : Date} (h : d.Valid) : (monthStart d).Valid := by
  obtain ⟨h1, h2, h3, h4, h5⟩ := h
  exact ⟨h1, h2, h3, le_refl 1, one_le_daysInMonth _ _⟩

theorem getKey_false (ts : Nat) : getKey false ts = 86400 * dayOfTs ts := by
  show 86400 * daysFromCivil ⟨(dateOfTs ts).year, (dateOfTs ts).month,
    if False then 1 else (dateOfTs ts).day⟩ = 86400 * dayOfTs ts
  rw [if_neg (fun h => h)]
  show 86400 * daysFromCivil (civilFromDays (dayOfTs ts)) = 86400 * dayOfTs ts
  rw [daysFromCivil_civilFromDays]

theorem getKey_true (ts : Nat) : getKey true ts = mkTime (monthStart (dateOfTs ts)) := rfl

theorem dayOfTs_mono {t1 t2 : Nat} (h : t1 ≤ t2) : dayOfTs t1 ≤ dayOfTs t2 :=
  Nat.div_le_div_right h

theorem monthStart_lexLe_of_le {n1 n2 : Nat} (h : n1 ≤ n2) :
    (monthStart (civilFromDays n1)).lexLe (monthStart (civilFromDays n2)) := by
  rcases Nat.eq_or_lt_of_le h with rfl | hlt
  · exact Or.inr rfl
  · have hlex := civilFromDays_lexLt hlt
    rcases hlex with hy | ⟨hy, hm | ⟨hm, _⟩⟩
    · exact Or.inl (Or.inl hy)
    · exact Or.inl (Or.inr ⟨hy, Or.inl hm⟩)
    · exact Or.inr (by simp [monthStart, hy, hm])

theorem mkTime_le_of_lexLe {a b : Date} (ha : a.Valid) (hb : b.Valid)
    (h : a.lexLe b) : mkTime a ≤ mkTime b := by
  rcases h with h | rfl
  · exact Nat.mul_le_mul_left _ (Nat.le_of_lt (daysFromCivil_lt_of_lexLt ha hb h))
  · exact le_refl _

theorem mkTime_lt_of_lexLt {a b : Date} (ha : a.Valid) (hb : b.Valid)
    (h : a.lexLt b) : mkTime a < mkTime b := by
  have := daysFromCivil_lt_of_lexLt ha hb h
  unfold mkTime
  omega

theorem getKey_mono (coarse : Bool) {t1 t2 : Nat} (h : t1 ≤ t2) :
    getKey coarse t1 ≤ getKey coarse t2 := by
  cases coarse with
  | false =>
    rw [getKey_false, getKey_false]
    have := dayOfTs_mono h
    omega
  | true =>
    rw [getKey_true, getKey_true]
    exact mkTime_le_of_lexLe
      (monthStart_valid (civilFromDays_valid _))
      (monthStart_valid (civilFromDays_valid _))
      (monthStart_lexLe_of_le (dayOfTs_mono h))

theorem walkTimes_chain (ts0 tsN : Nat) :
    List.Chain' (· ≤ ·) (walkTimes ts0 tsN) := by
  unfold walkTimes
  split_ifs
  · rw [List.chain'_map]
    cases h : (tsN - ts0) / 86400 + 1 with
    | zero => simp at h
    | succ n =>
      rw [List.chain'_range_succ]
      intro m _
      omega
  · exact trivial

theorem walkKeys_chain (coarse : Bool) (logs : List Line) :
    List.Chain' (· < ·) (inMemoryWalkKeys coarse logs) := by
  cases logs with
  | nil => exact trivial
  | cons l0 rest =>
    apply dedupConsec_chain
    rw [List.chain'_map]
    exact List.Chain'.imp (fun a b h => getKey_mono coarse h) (walkTimes_chain _ _)

/-! ### Structure of the walk and normalization passes -/

theorem walkSeries_map_key (c : Bool) (mc tc : Nat → Nat) (ks : List Nat) (tm tp : Nat) :
    (walkSeries c mc tc ks tm tp).map (fun e => e.1.1) = ks := by
  induction ks generalizing tm tp with
  | nil => rfl
  | cons k ks ih => simp [walkSeries, ih]

theorem normalizeSeries_map_key (c : Bool) (w : Option Nat) (tc : Nat → Nat)
    (es : List ((Nat × Nat) × Nat)) (tw mw : List ℚ) :
    (normalizeSeries c w tc es tw mw).map (fun p => p.1) = es.map (fun e => e.1.1) := by
  induction es generalizing tw mw with
  | nil => rfl
  | cons e es ih =>
    obtain ⟨⟨k, y⟩, ct⟩ := e
    simp [normalizeSeries, ih]

theorem inMemorySeries_map_key (vn : AliasTable) (r : Regex) (cumulative coarse : Bool)
    (nick : Option String) (normalize : Bool) (nt : NormalizeType) (logs : List Line) :
    (inMemorySeries vn r cumulative coarse nick normalize nt logs).map (fun p => p.1) =
      inMemoryWalkKeys coarse logs := by
  unfold inMemorySeries
  simp only []
  split_ifs
  · rw [normalizeSeries_map_key, inMemoryEntries, walkSeries_map_key]
  · rw [List.map_map]
    exact walkSeries_map_key _ _ _ _ _ _

theorem prefixSums_length (acc : ℚ) (l : List ℚ) : (prefixSums acc l).length = l.length := by
  induction l generalizing acc with
  | nil => rfl
  | cons y ys ih => simp [prefixSums, ih]

theorem sqliteKeyDate_valid (coarse : Bool) (n : Nat) : (sqliteKeyDate coarse n).Valid := by
  obtain ⟨h1, h2, h3, h4, h5⟩ := civilFromDays_valid n
  cases coarse with
  | true => exact ⟨h1, h2, h3, le_refl 1, one_le_daysInMonth _ _⟩
  | false => exact ⟨h1, h2, h3, h4, h5⟩

theorem sqliteYs_length {vn : AliasTable} {nick : Option String} {r : Regex}
    {coarse normalize : Bool} {nt : NormalizeType} {logs : List Line} {ys : List ℚ}
    (h : sqliteYs vn nick r coarse normalize nt logs = some ys) :
    ys.length = (sqliteGroupDates coarse logs).length := by
  unfold sqliteYs at h
  simp only [] at h
  split_ifs at h with h1
  · cases nt with
    | default =>
      simp only [Option.some.injEq] at h
      rw [← h]
      simp [sqliteCnts]
    | trailingAvg w =>
      simp only [] at h
      split_ifs at h with h2
      · simp only [Option.some.injEq] at h
        rw [← h]
        simp
  · simp only [Option.some.injEq] at h
    rw [← h]
    simp [sqliteCnts]

theorem chain'_zip_of_pairwise {A : List Nat} {B : List ℚ}
    (hA : List.Pairwise (· < ·) A) (hlen : A.length ≤ B.length) :
    List.Chain' (fun p q : Nat × ℚ => p.1 < q.1) (A.zip B) := by
  have hfst : (A.zip B).map Prod.fst = A := List.map_fst_zip _ _ hlen
  have h2 := hfst ▸ hA
  exact (List.pairwise_map.mp h2).chain'

theorem sqliteGroupDates_pairwise (coarse : Bool) (logs : List Line) :
    List.Pairwise Date.lexLt (sqliteGroupDates coarse logs) := by
  have hs : List.Sorted Date.lexLe (sqliteGroupDates coarse logs) :=
    List.sorted_insertionSort _ _
  have hn : (sqliteGroupDates coarse logs).Nodup :=
    ((List.perm_insertionSort _ _).symm).nodup (dedupFirst_nodup _)
  exact (hs.and hn).imp (fun hab => lexLt_of_lexLe_ne hab.1 hab.2)

theorem sqliteGroupDates_valid {coarse : Bool} {logs : List Line} {dt : Date}
    (h : dt ∈ sqliteGroupDates coarse logs) : dt.Valid := by
  rw [sqliteGroupDates, List.mem_insertionSort, mem_dedupFirst] at h
  obtain ⟨n, _, rfl⟩ := List.mem_map.mp h
  exact sqliteKeyDate_valid coarse n

theorem inMemorySeries_pairwise (vn : AliasTable) (r : Regex) (cumulative coarse : Bool)
    (nick : Option String) (normalize : Bool) (nt : NormalizeType) (logs : List Line) :
    List.Pairwise (fun p q : Nat × ℚ => p.1 < q.1)
      (inMemorySeries vn r cumulative coarse nick normalize nt logs) := by
  have hkeys : List.Pairwise (· < ·) (inMemoryWalkKeys coarse logs) :=
    List.chain'_iff_pairwise.mp (walkKeys_chain coarse logs)
  rw [← inMemorySeries_map_key vn r cumulative coarse nick normalize nt] at hkeys
  exact List.pairwise_map.mp hkeys

/-- On a nonempty corpus with a valid pattern, the final `sorted(...)` is
the identity: the series is already ascending in `x`. -/
theorem inMemorySingle_eq_series (vn : AliasTable) (r : Regex) (cumulative coarse : Bool)
    (nick : Option String) (normalize : Bool) (nt : NormalizeType) (l0 : Line)
    (rest : List Line) :
    inMemoryQueryLogsSingle vn (some r) cumulative coarse nick normalize nt (l0 :: rest) =
      inMemorySeries vn r cumulative coarse nick normalize nt (l0 :: rest) := by
  have hsorted : List.Sorted (fun p q : Nat × ℚ => p.1 ≤ q.1)
      (inMemorySeries vn r cumulative coarse nick normalize nt (l0 :: rest)) :=
    (inMemorySeries_pairwise vn r cumulative coarse nick normalize nt (l0 :: rest)).imp
      (fun h => Nat.le_of_lt h)
  show List.insertionSort (fun a b => a.1 ≤ b.1)
      (inMemorySeries vn r cumulative coarse nick normalize nt (l0 :: rest)) = _
  rw [List.Sorted.insertionSort_eq hsorted]

/-- C9 — Every series returned by `query_logs` (under any option
combination) is sorted strictly ascending by its `x` period key, with no
duplicate `x` values within one series: both for the in-memory engine's
`_query_logs_single` and for the SQLite engine's whenever it returns. -/
theorem c9_series_x_strictly_ascending (vn : AliasTable) (compiled : Option Regex)
    (cumulative coarse : Bool) (nick : Option String) (normalize : Bool)
    (nt : NormalizeType) (logs : List Line) :
    List.Chain' (fun p q : Nat × ℚ => p.1 < q.1)
      (inMemoryQueryLogsSingle vn compiled cumulative coarse nick normalize nt logs) ∧
    (∀ res, sqliteQueryLogsSingle vn compiled cumulative coarse nick normalize nt logs =
        some res → List.Chain' (fun p q : Nat × ℚ => p.1 < q.1) res) := by
  constructor
  · unfold inMemoryQueryLogsSingle
    cases compiled with
    | none => exact trivial
    | some r =>
      cases logs with
      | nil => exact trivial
      | cons l0 rest =>
        have h := inMemorySingle_eq_series vn r cumulative coarse nick normalize nt l0 rest
        unfold inMemoryQueryLogsSingle at h
        rw [h]
        exact (inMemorySeries_pairwise vn r cumulative coarse nick normalize nt
          (l0 :: rest)).chain'
  · intro res h
    unfold sqliteQueryLogsSingle at h
    by_cases herr : sqliteFilterError vn compiled nick = true
    · rw [if_pos herr] at h
      simp only [Option.some.injEq] at h
      rw [← h]
      exact trivial
    · rw [if_neg herr] at h
      cases compiled with
      | none =>
        simp only [Option.some.injEq] at h
        rw [← h]
        exact trivial
      | some r =>
        simp only [] at h
        cases hys : sqliteYs vn nick r coarse normalize nt logs with
        | none => rw [hys] at h; exact absurd h (by simp)
        | some ys =>
          rw [hys] at h
          simp only [Option.some.injEq] at h
          have hdates : List.Pairwise (· < ·)
              ((sqliteGroupDates coarse logs).map mkTime) := by
            rw [List.pairwise_map]
            exact (sqliteGroupDates_pairwise coarse logs).imp_of_mem
              (fun ha hb hr => mkTime_lt_of_lexLt (sqliteGroupDates_valid ha)
                (sqliteGroupDates_valid hb) hr)
          rw [← h]
          apply chain'_zip_of_pairwise hdates
          have hl := sqliteYs_length hys
          cases cumulative <;> simp [prefixSums_length, hl]

/-- A concrete matcher for test corpora: matches exactly the message
`"hit"`, with span `(0, 3)`. -/
def rxHit : Regex := fun s => if s = "hit" then some (0, 3) else none

/-- A five-line corpus over three days with exactly four matches of
`rxHit`. -/
def linesC7 : List Line :=
  [⟨0, "A", "hit"⟩, ⟨1, "A", "hit"⟩, ⟨86400, "A", "hit"⟩,
   ⟨86401, "A", "miss"⟩, ⟨172800, "A", "hit"⟩]

theorem pySlice_eq_take_drop (l : List α) (a b : Nat) :
    pySlice l a (a + b) = (l.drop a).take b := by
  unfold pySlice
  rw [List.drop_take]
  congr 1
  omega

/-- C7 — `search_day_logs` computes `totalMatchCount` over all matches
before applying limit/offset slicing, returns the page
`results[offset : offset+limit]`, treats `limit=None` as unbounded and
`offset=None` as `0`; on a corpus with exactly 4 matches, `limit=2` and
`offset=2` returns the matches at positions 2 and 3 with total count 4
(shown by the concrete final conjunct). -/
theorem c7_search_pagination (compiled : Option Regex) (limit offset : Option Nat)
    (logs : List Line) :
    (inMemorySearchDayLogs compiled limit offset logs).2 =
      (inMemorySearchDayLogs compiled none none logs).1.length ∧
    (inMemorySearchDayLogs compiled limit offset logs).1 =
      (match limit with
       | none => (inMemorySearchDayLogs compiled none none logs).1.drop (offset.getD 0)
       | some lim =>
         (((inMemorySearchDayLogs compiled none none logs).1.drop (offset.getD 0)).take lim)) ∧
    ((inMemorySearchDayLogs (some rxHit) (some 2) (some 2) linesC7).2 = 4 ∧
     (inMemorySearchDayLogs (some rxHit) (some 2) (some 2) linesC7).1 =
       [(⟨1970, 1, 1⟩, 0, ⟨0, "A", "hit"⟩, 0, 3), (⟨1970, 1, 1⟩, 1, ⟨1, "A", "hit"⟩, 0, 3)]) := by
  refine ⟨?_, ?_, by decide, by decide⟩
  · cases compiled with
    | none => rfl
    | some r => rfl
  · cases compiled with
    | none => cases limit <;> simp [inMemorySearchDayLogs]
    | some r =>
      show (match limit with
        | none => (inMemorySearchAll r logs).drop (offset.getD 0)
        | some lim => pySlice (inMemorySearchAll r logs) (offset.getD 0) (offset.getD 0 + lim)) = _
      cases limit with
      | none => simp [inMemorySearchDayLogs]
      | some lim =>
        simp only [inMemorySearchDayLogs, Option.getD_none, List.drop_zero]
        rw [pySlice_eq_take_drop]

theorem mem_upsertDay_keys {d d0 : Date} {l : Line} {acc : List (Date × List Line)} :
    d ∈ (upsertDay d0 l acc).map (fun p => p.1) ↔
      d ∈ acc.map (fun p => p.1) ∨ d = d0 := by
  induction acc with
  | nil => simp [upsertDay]
  | cons p rest ih =>
    obtain ⟨d2, ls⟩ := p
    unfold upsertDay
    split_ifs with heq
    · subst heq
      simp only [List.map_cons, List.mem_cons]
      constructor
      · intro h
        rcases h with h | h
        · exact Or.inl (Or.inl h)
        · exact Or.inl (Or.inr h)
      · intro h
        rcases h with (h | h) | rfl
        · exact Or.inl h
        · exact Or.inr h
        · exact Or.inl rfl
    · simp only [List.map_cons, List.mem_cons, ih]
      tauto

theorem mem_logsByDay_keys {logs : List Line} {d : Date} :
    d ∈ (logsByDay logs).map (fun p => p.1) ↔ ∃ l ∈ logs, dateOfTs l.ts = d := by
  unfold logsByDay
  suffices h : ∀ acc : List (Date × List Line),
      d ∈ (logs.foldl (fun acc l => upsertDay (dateOfTs l.ts) l acc) acc).map (fun p => p.1) ↔
        d ∈ acc.map (fun p => p.1) ∨ ∃ l ∈ logs, dateOfTs l.ts = d by
    rw [h []]
    simp
  induction logs with
  | nil => simp
  | cons l0 rest ih =>
    intro acc
    simp only [List.foldl_cons, ih, mem_upsertDay_keys]
    constructor
    · intro h
      rcases h with (h | h) | h
      · exact Or.inl h
      · exact Or.inr ⟨l0, List.mem_cons_self _ _, h.symm⟩
      · obtain ⟨l, hl, he⟩ := h
        exact Or.inr ⟨l, List.mem_cons_of_mem _ hl, he⟩
    · intro h
      rcases h with h | ⟨l, hl, he⟩
      · exact Or.inl (Or.inl h)
      · rcases List.mem_cons.mp hl with rfl | hl
        · exact Or.inl (Or.inr he.symm)
        · exact Or.inr ⟨l, hl, he⟩

/-- C10 — For a `(year, month, day)` triple that is not among the corpus's
valid days (days having at least one event), `get_logs_by_day` of both
engines returns an empty event list with both neighbour days `None`, and
does not raise. -/
theorem c10_get_logs_by_day_invalid (logs : List Line) (y m d : Nat)
    (h : ∀ l ∈ logs, dateOfTs l.ts ≠ ⟨y, m, d⟩) :
    inMemoryGetLogsByDay logs y m d = ([], none, none) ∧
    sqliteGetLogsByDay logs y m d = ([], none, none) := by
  have hmemIM : (⟨y, m, d⟩ : Date) ∉ inMemoryValidDays logs := by
    intro hmem
    rw [inMemoryValidDays, List.mem_insertionSort, mem_logsByDay_keys] at hmem
    obtain ⟨l, hl, he⟩ := hmem
    exact h l hl he
  have hmemSQ : (⟨y, m, d⟩ : Date) ∉ sqliteValidDays logs := by
    intro hmem
    rw [sqliteValidDays, List.mem_insertionSort, mem_dedupFirst] at hmem
    obtain ⟨l, hl, he⟩ := List.mem_map.mp hmem
    exact h l hl he
  have hidxIM : (inMemoryValidDays logs).findIdx?
      (fun x => decide (x = (⟨y, m, d⟩ : Date))) = none := by
    rw [List.findIdx?_eq_none_iff]
    intro x hx
    simp only [decide_eq_false_iff_not]
    intro hxe
    exact hmemIM (hxe ▸ hx)
  have hidxSQ : (sqliteValidDays logs).findIdx?
      (fun x => decide (x = (⟨y, m, d⟩ : Date))) = none := by
    rw [List.findIdx?_eq_none_iff]
    intro x hx
    simp only [decide_eq_false_iff_not]
    intro hxe
    exact hmemSQ (hxe ▸ hx)
  have hfilt : logs.filter (fun l => decide (dateOfTs l.ts = (⟨y, m, d⟩ : Date))) = [] := by
    rw [List.filter_eq_nil_iff]
    intro l hl
    simp only [decide_eq_true_eq]
    exact h l hl
  constructor
  · simp only [inMemoryGetLogsByDay, hidxIM, hfilt]
  · simp only [sqliteGetLogsByDay, hidxSQ, hfilt]
    rfl

/-- Witness for C10 at a concrete corpus and absent day. -/
theorem c10_witness :
    (∀ l ∈ linesC7, dateOfTs l.ts ≠ ⟨1970, 2, 1⟩) ∧
    inMemoryGetLogsByDay linesC7 1970 2 1 = ([], none, none) ∧
    sqliteGetLogsByDay linesC7 1970 2 1 = ([], none, none) := by
  refine ⟨by decide, ?_⟩
  have h := c10_get_logs_by_day_invalid linesC7 1970 2 1 (by decide)
  exact h

/-! ### C3: cumulative monotonicity -/

theorem walkSeries_cumulative_chain (mc tc : Nat → Nat) (ks : List Nat) (tm tp : Nat) :
    List.Chain' (fun a b : (Nat × Nat) × Nat => a.1.2 ≤ b.1.2)
      (walkSeries true mc tc ks tm tp) := by
  induction ks generalizing tm tp with
  | nil => exact trivial
  | cons k ks ih =>
    unfold walkSeries
    rw [List.chain'_cons']
    refine ⟨?_, ih _ _⟩
    intro b hb
    cases ks with
    | nil => simp [walkSeries] at hb
    | cons k2 ks2 =>
      simp only [walkSeries, List.head?_cons, Option.mem_def, Option.some.injEq] at hb
      rw [← hb]
      simp only [if_true]
      omega

theorem inMemorySeries_not_normalize (vn : AliasTable) (r : Regex)
    (cumulative coarse : Bool) (nick : Option String) (nt : NormalizeType)
    (logs : List Line) :
    inMemorySeries vn r cumulative coarse nick false nt logs =
      (inMemoryEntries vn nick r cumulative coarse logs).map
        (fun e => (e.1.1, (e.1.2 : ℚ))) := by
  unfold inMemorySeries
  simp only [Bool.false_eq_true, false_and, if_false]

theorem windowSumAt_nonneg {l : List ℚ} (h : ∀ x ∈ l, 0 ≤ x) (w i : Nat) :
    0 ≤ windowSumAt w l i := by
  apply List.sum_nonneg
  intro x hx
  exact h x (List.take_subset _ _ (List.drop_subset _ _ hx))

theorem sqliteYs_nonneg {vn : AliasTable} {nick : Option String} {r : Regex}
    {coarse normalize : Bool} {nt : NormalizeType} {logs : List Line} {ys : List ℚ}
    (h : sqliteYs vn nick r coarse normalize nt logs = some ys) :
    ∀ y ∈ ys, 0 ≤ y := by
  have hcnts : ∀ c ∈ sqliteCnts vn nick r coarse logs, (0 : ℚ) ≤ c := by
    intro c hc
    obtain ⟨dt, _, rfl⟩ := List.mem_map.mp hc
    exact Nat.cast_nonneg _
  unfold sqliteYs at h
  simp only [] at h
  split_ifs at h with h1
  · cases nt with
    | default =>
      simp only [Option.some.injEq] at h
      rw [← h]
      intro y hy
      obtain ⟨c, hc, rfl⟩ := List.mem_map.mp hy
      exact div_nonneg (hcnts c hc) (Nat.cast_nonneg _)
    | trailingAvg w =>
      simp only [] at h
      split_ifs at h with h2
      · simp only [Option.some.injEq] at h
        rw [← h]
        intro y hy
        obtain ⟨i, _, rfl⟩ := List.mem_map.mp hy
        split_ifs with hden
        · exact le_refl 0
        · apply div_nonneg
          · apply windowSumAt_nonneg hcnts
          · apply windowSumAt_nonneg
            intro x hx
            obtain ⟨dt, _, rfl⟩ := List.mem_map.mp hx
            exact Nat.cast_nonneg _
  · simp only [Option.some.injEq] at h
    rw [← h]
    exact hcnts

theorem prefixSums_chain {l : List ℚ} (h : ∀ y ∈ l, 0 ≤ y) (acc : ℚ) :
    List.Chain' (· ≤ ·) (prefixSums acc l) := by
  induction l generalizing acc with
  | nil => exact trivial
  | cons y ys ih =>
    rw [prefixSums, List.chain'_cons']
    refine ⟨?_, ih (fun z hz => h z (List.mem_cons_of_mem _ hz)) _⟩
    intro b hb
    cases ys with
    | nil => simp [prefixSums] at hb
    | cons y2 ys2 =>
      simp only [prefixSums, List.head?_cons, Option.mem_def, Option.some.injEq] at hb
      have : (0 : ℚ) ≤ y2 := h y2 (by simp)
      rw [← hb]
      linarith

theorem chain'_zip_snd {A : List Nat} {B : List ℚ}
    (hB : List.Chain' (· ≤ ·) B) (hlen : B.length ≤ A.length) :
    List.Chain' (fun p q : Nat × ℚ => p.2 ≤ q.2) (A.zip B) := by
  have hsnd : (A.zip B).map Prod.snd = B := List.map_snd_zip _ _ hlen
  rw [← hsnd] at hB
  exact (List.chain'_map _).mp hB

/-- A two-line corpus: one matching line on day 0, one non-matching line on
day 1. -/
def linesC3 : List Line := [⟨0, "A", "hit"⟩, ⟨86400, "A", "miss"⟩]

unseal Rat.inv Rat.mul Rat.add Rat.sub in
/-- C3, counterexample — with `cumulative=true` and `normalize=true` the
in-memory engine's `y` sequence can decrease (here `[1, 1/2]`): the claim
is false as stated for "any combination of the other options". -/
theorem c3_counterexample :
    ¬ List.Chain' (fun p q : Nat × ℚ => p.2 ≤ q.2)
      (inMemoryQueryLogsSingle [] (some rxHit) true false none true .default linesC3) := by
  intro hch
  have heq : inMemoryQueryLogsSingle [] (some rxHit) true false none true .default linesC3 =
      [(0, (1 : ℚ)), (86400, 1/2)] := by decide
  rw [heq] at hch
  have hle : ((0, (1 : ℚ)) : Nat × ℚ).2 ≤ ((86400, (1/2 : ℚ)) : Nat × ℚ).2 :=
    (List.chain'_cons.mp hch).1
  norm_num at hle

/-- C3 (amended) — For every query with `cumulative=true`, the `y` sequence
ordered by ascending `x` is non-decreasing, provided (for the in-memory
engine) `normalize=false`: its cumulative normalization divides the running
match count by the running total and may decrease.  The SQLite engine's
cumulative series is non-decreasing under every option combination. -/
theorem c3_cumulative_monotone (vn : AliasTable) (compiled : Option Regex)
    (coarse : Bool) (nick : Option String) (normalize : Bool) (nt : NormalizeType)
    (logs : List Line) :
    (normalize = false →
      List.Chain' (fun p q : Nat × ℚ => p.2 ≤ q.2)
        (inMemoryQueryLogsSingle vn compiled true coarse nick normalize nt logs)) ∧
    (∀ res, sqliteQueryLogsSingle vn compiled true coarse nick normalize nt logs =
        some res → List.Chain' (fun p q : Nat × ℚ => p.2 ≤ q.2) res) := by
  constructor
  · rintro rfl
    cases compiled with
    | none => exact trivial
    | some r =>
      cases logs with
      | nil => exact trivial
      | cons l0 rest =>
        rw [inMemorySingle_eq_series, inMemorySeries_not_normalize]
        have hc := walkSeries_cumulative_chain (matchedAt vn nick coarse r (l0 :: rest))
          (totalAt vn nick coarse (l0 :: rest)) (inMemoryWalkKeys coarse (l0 :: rest)) 0 0
        exact (List.chain'_map _).mpr
          (hc.imp (fun a b hab => by
            simpa using (Nat.cast_le.mpr hab : ((a.1.2 : ℚ) ≤ (b.1.2 : ℚ)))))
  · intro res h
    unfold sqliteQueryLogsSingle at h
    by_cases herr : sqliteFilterError vn compiled nick = true
    · rw [if_pos herr] at h
      simp only [Option.some.injEq] at h
      rw [← h]
      exact trivial
    · rw [if_neg herr] at h
      cases compiled with
      | none =>
        simp only [Option.some.injEq] at h
        rw [← h]
        exact trivial
      | some r =>
        simp only [] at h
        cases hys : sqliteYs vn nick r coarse normalize nt logs with
        | none => rw [hys] at h; exact absurd h (by simp)
        | some ys =>
          rw [hys] at h
          simp only [Option.some.injEq, if_pos rfl] at h
          rw [← h]
          apply chain'_zip_snd (prefixSums_chain (sqliteYs_nonneg hys) 0)
          rw [prefixSums_length, List.length_map, sqliteYs_length hys]

unseal Rat.inv Rat.mul Rat.add Rat.sub in
theorem c3_eval :
    sqliteQueryLogsSingle [] (some rxHit) true false none false .default linesC7 =
      some [((0 : Nat), (2 : ℚ)), (86400, 3), (172800, 4)] := by
  have hgd : sqliteGroupDates false linesC7 =
      [⟨1970, 1, 1⟩, ⟨1970, 1, 2⟩, ⟨1970, 1, 3⟩] := by
    unfold sqliteGroupDates
    rw [show (sqliteSpine linesC7).map (sqliteKeyDate false) =
      [(⟨1970, 1, 1⟩ : Date), ⟨1970, 1, 2⟩, ⟨1970, 1, 3⟩] from by decide]
    rw [show dedupFirst [(⟨1970, 1, 1⟩ : Date), ⟨1970, 1, 2⟩, ⟨1970, 1, 3⟩] =
      [⟨1970, 1, 1⟩, ⟨1970, 1, 2⟩, ⟨1970, 1, 3⟩] from by simp [dedupFirst]]
    decide
  have hys : sqliteYs [] none rxHit false false .default linesC7 =
      some [(2 : ℚ), 1, 1] := by
    unfold sqliteYs sqliteCnts
    rw [hgd]
    decide
  unfold sqliteQueryLogsSingle
  rw [if_neg (show ¬sqliteFilterError [] (some rxHit) none = true from by decide)]
  simp only [hys, hgd]
  decide

/-- Witness for C3 at a concrete input: the in-memory conjunct at a
three-day corpus and the SQLite conjunct at its concretely evaluated
result `[(0, 2), (86400, 3), (172800, 4)]`. -/
theorem c3_witness :
    List.Chain' (fun p q : Nat × ℚ => p.2 ≤ q.2)
      (inMemoryQueryLogsSingle [] (some rxHit) true false none false .default linesC7) ∧
    List.Chain' (fun p q : Nat × ℚ => p.2 ≤ q.2)
      [((0 : Nat), (2 : ℚ)), (86400, 3), (172800, 4)] :=
  ⟨(c3_cumulative_monotone [] (some rxHit) false none false .default linesC7).1 rfl,
   (c3_cumulative_monotone [] (some rxHit) false none false .default linesC7).2 _ c3_eval⟩

/-! ### C4: normalization with zero totals -/

theorem walkSeries_length (c : Bool) (mc tc : Nat → Nat) (ks : List Nat) (tm tp : Nat) :
    (walkSeries c mc tc ks tm tp).length = ks.length := by
  induction ks generalizing tm tp with
  | nil => rfl
  | cons k ks ih => simp [walkSeries, ih]

theorem normalizeSeries_length (c : Bool) (w : Option Nat) (tc : Nat → Nat)
    (es : List ((Nat × Nat) × Nat)) (tw mw : List ℚ) :
    (normalizeSeries c w tc es tw mw).length = es.length := by
  induction es generalizing tw mw with
  | nil => rfl
  | cons e es ih =>
    obtain ⟨⟨k, y⟩, ct⟩ := e
    simp [normalizeSeries, ih]

theorem pySliceLast_append (w : Nat) (A B : List ℚ) :
    pySliceLast w (pySliceLast w A ++ B) = pySliceLast w (A ++ B) := by
  unfold pySliceLast
  split_ifs with h
  · rfl
  · rw [List.drop_append_eq_append_drop, List.drop_append_eq_append_drop, List.drop_drop]
    have hlen : (List.drop (A.length - w) A ++ B).length = (A.length - (A.length - w)) + B.length := by
      simp
    congr 1
    · congr 1
      simp only [List.length_append, List.length_drop]
      omega
    · congr 1
      simp only [List.length_append, List.length_drop]
      omega

theorem applyWindow_append (w : Option Nat) (A B : List ℚ) :
    applyWindow w (applyWindow w A ++ B) = applyWindow w (A ++ B) := by
  cases w with
  | none => exact pySliceLast_append 1 A B
  | some ws => exact pySliceLast_append ws A B

/-- The non-cumulative normalization divides by the trailing-window sum of
per-key totals; a zero window total yields exactly `0`. -/
theorem normalizeSeries_zero_window (w : Option Nat) (tc : Nat → Nat) :
    ∀ (es : List ((Nat × Nat) × Nat)) (tw mw : List ℚ) (i : Nat)
      (hi : i < (normalizeSeries false w tc es tw mw).length),
      (applyWindow w (tw ++ (es.take (i + 1)).map (fun e => (tc e.1.1 : ℚ)))).sum = 0 →
      (normalizeSeries false w tc es tw mw)[i].2 = 0 := by
  intro es
  induction es with
  | nil => intro tw mw i hi; simp [normalizeSeries] at hi
  | cons e es ih =>
    intro tw mw i hi hz
    obtain ⟨⟨k, y⟩, ct⟩ := e
    cases i with
    | zero =>
      simp only [List.take_succ_cons, List.take_zero, List.map_cons, List.map_nil] at hz
      show (normalizeSeries false w tc ((( k, y), ct) :: es) tw mw)[0].2 = 0
      unfold normalizeSeries
      simp only [Bool.false_eq_true, if_false, List.getElem_cons_zero]
      rw [if_pos hz]
    | succ j =>
      unfold normalizeSeries
      simp only [Bool.false_eq_true, if_false, List.getElem_cons_succ]
      unfold normalizeSeries at hi
      simp only [List.length_cons] at hi
      apply ih _ _ j (by rw [normalizeSeries_length] at *; simpa using hi)
      rw [← List.singleton_append, ← List.append_assoc, applyWindow_append]
      simpa using hz

/-- The cumulative normalization divides by the stored running total; a
zero running total yields exactly `0`. -/
theorem normalizeSeries_zero_cumulative (w : Option Nat) (tc : Nat → Nat) :
    ∀ (es : List ((Nat × Nat) × Nat)) (tw mw : List ℚ) (i : Nat)
      (hi : i < (normalizeSeries true w tc es tw mw).length),
      (∀ he : i < es.length, es[i].2 = 0) →
      (normalizeSeries true w tc es tw mw)[i].2 = 0 := by
  intro es
  induction es with
  | nil => intro tw mw i hi; simp [normalizeSeries] at hi
  | cons e es ih =>
    intro tw mw i hi hz
    obtain ⟨⟨k, y⟩, ct⟩ := e
    cases i with
    | zero =>
      have hz0 := hz (by simp)
      simp only [List.getElem_cons_zero] at hz0
      unfold normalizeSeries
      simp only [if_pos rfl, List.getElem_cons_zero]
      rw [if_pos (show ((ct : ℚ) = 0) from Nat.cast_eq_zero.mpr hz0)]
      simp
    | succ j =>
      unfold normalizeSeries
      simp only [List.getElem_cons_succ]
      unfold normalizeSeries at hi
      simp only [List.length_cons] at hi
      apply ih _ _ j (by rw [normalizeSeries_length] at *; simpa using hi)
      intro he
      have hz2 := hz (by simpa using he)
      simpa using hz2

theorem walkSeries_getElem (c : Bool) (mc tc : Nat → Nat) :
    ∀ (ks : List Nat) (tm tp : Nat) (i : Nat) (hi : i < ks.length)
      (hw : i < (walkSeries c mc tc ks tm tp).length),
      (walkSeries c mc tc ks tm tp)[i] =
        ((ks[i], if c then tm + ((ks.take (i + 1)).map mc).sum else mc ks[i]),
         tp + ((ks.take (i + 1)).map tc).sum) := by
  intro ks
  induction ks with
  | nil => intro tm tp i hi hw; simp at hi
  | cons k ks ih =>
    intro tm tp i hi hw
    cases i with
    | zero =>
      simp [walkSeries]
    | succ j =>
      have hj : j < ks.length := by simpa using hi
      have hwj : j < (walkSeries c mc tc ks (tm + mc k) (tp + tc k)).length := by
        rw [walkSeries_length]; exact hj
      unfold walkSeries
      simp only [List.getElem_cons_succ, List.take_succ_cons, List.map_cons, List.sum_cons]
      rw [ih _ _ j hj hwj]
      congr 1
      · congr 1
        cases c <;> simp <;> omega
      · omega

theorem walkSeries_snd_zero (c : Bool) (mc tc : Nat → Nat) :
    ∀ (ks : List Nat) (tp : Nat), (ks.map mc).sum = 0 →
      ∀ e ∈ walkSeries c mc tc ks 0 tp, e.1.2 = 0 := by
  intro ks
  induction ks with
  | nil => intro tp hs e he; simp [walkSeries] at he
  | cons k ks ih =>
    intro tp hs e he
    simp only [List.map_cons, List.sum_cons] at hs
    have hk : mc k = 0 := by omega
    have hrest : (List.map mc ks).sum = 0 := by omega
    simp only [walkSeries, List.mem_cons] at he
    rcases he with rfl | he
    · cases c <;> simp [hk]
    · simp only [hk, Nat.add_zero, Nat.zero_add] at he
      exact ih (tp + tc k) hrest e he

theorem inMemorySeries_length (vn : AliasTable) (r : Regex) (cumulative coarse : Bool)
    (nick : Option String) (normalize : Bool) (nt : NormalizeType) (logs : List Line) :
    (inMemorySeries vn r cumulative coarse nick normalize nt logs).length =
      (inMemoryWalkKeys coarse logs).length := by
  have h := inMemorySeries_map_key vn r cumulative coarse nick normalize nt logs
  calc (inMemorySeries vn r cumulative coarse nick normalize nt logs).length
      = ((inMemorySeries vn r cumulative coarse nick normalize nt logs).map
          (fun p => p.1)).length := by rw [List.length_map]
    _ = (inMemoryWalkKeys coarse logs).length := by rw [h]

/-- C4 — With `normalize=true`, a period whose relevant total is zero gets
`y = 0` exactly, in every mode: (1) in-memory per-period/trailing-window
normalization, (2) in-memory cumulative normalization, (3) the SQLite
trailing-window query, and (4) the SQLite global normalization, whose
divisor (the corpus size) is zero only for the empty corpus, which produces
an empty series.  All embedded functions are total: no error and no
NaN/infinity can arise. -/
theorem c4_normalize_zero_total (vn : AliasTable) (r : Regex) (coarse : Bool)
    (nick : Option String) (nt : NormalizeType) (logs : List Line) :
    (∀ i (hi : i < (inMemoryQueryLogsSingle vn (some r) false coarse nick true nt logs).length),
      (applyWindow (windowOf nt) (((inMemoryWalkKeys coarse logs).take (i + 1)).map
        (fun k => (totalAt vn nick coarse logs k : ℚ)))).sum = 0 →
      (inMemoryQueryLogsSingle vn (some r) false coarse nick true nt logs)[i].2 = 0) ∧
    (∀ i (hi : i < (inMemoryQueryLogsSingle vn (some r) true coarse nick true nt logs).length),
      (((inMemoryWalkKeys coarse logs).take (i + 1)).map
        (totalAt vn nick coarse logs)).sum = 0 →
      (inMemoryQueryLogsSingle vn (some r) true coarse nick true nt logs)[i].2 = 0) ∧
    (∀ (w : Nat) (ys : List ℚ),
      sqliteYs vn nick r coarse true (.trailingAvg w) logs = some ys →
      ∀ i (hi : i < ys.length),
        windowSumAt w ((sqliteGroupDates coarse logs).map
          (fun dt => (sqliteTotalCount vn nick coarse logs dt : ℚ))) i = 0 →
        ys[i] = 0) ∧
    (logs = [] → ∀ cumulative,
      sqliteQueryLogsSingle vn (some r) cumulative coarse nick true .default logs =
        some []) := by
  refine ⟨?_, ?_, ?_, ?_⟩
  · cases logs with
    | nil => intro i hi; simp [inMemoryQueryLogsSingle] at hi
    | cons l0 rest =>
      intro i hi hz
      rw [inMemorySingle_eq_series] at hi
      rw [List.getElem_of_eq (inMemorySingle_eq_series vn r false coarse nick true nt l0 rest)
        (by rw [inMemorySingle_eq_series]; exact hi)]
      by_cases hcond : (true = true) ∧
          0 < ((inMemoryWalkKeys coarse (l0 :: rest)).map
            (matchedAt vn nick coarse r (l0 :: rest))).sum
      · have hser : inMemorySeries vn r false coarse nick true nt (l0 :: rest) =
            normalizeSeries false (windowOf nt) (totalAt vn nick coarse (l0 :: rest))
              (inMemoryEntries vn nick r false coarse (l0 :: rest)) [] [] := by
          unfold inMemorySeries
          rw [if_pos hcond]
        rw [hser] at hi
        rw [List.getElem_of_eq hser (by rw [hser] at *; exact hi)]
        apply normalizeSeries_zero_window
        have hkeys : ((inMemoryEntries vn nick r false coarse (l0 :: rest)).map
            (fun e => e.1.1)) = inMemoryWalkKeys coarse (l0 :: rest) :=
          walkSeries_map_key _ _ _ _ _ _
        have hmk : ((inMemoryEntries vn nick r false coarse (l0 :: rest)).take (i + 1)).map
            (fun e => (totalAt vn nick coarse (l0 :: rest) e.1.1 : ℚ)) =
            (((inMemoryWalkKeys coarse (l0 :: rest)).take (i + 1)).map
              (fun k => (totalAt vn nick coarse (l0 :: rest) k : ℚ))) := by
          rw [← hkeys, ← List.map_take, List.map_map]
          rfl
        rw [List.nil_append, hmk]
        exact hz
      · have htm : ((inMemoryWalkKeys coarse (l0 :: rest)).map
            (matchedAt vn nick coarse r (l0 :: rest))).sum = 0 := by
          rcases Nat.eq_zero_or_pos ((inMemoryWalkKeys coarse (l0 :: rest)).map
            (matchedAt vn nick coarse r (l0 :: rest))).sum with h0 | hpos
          · exact h0
          · exact absurd ⟨rfl, hpos⟩ hcond
        have hser : inMemorySeries vn r false coarse nick true nt (l0 :: rest) =
            (inMemoryEntries vn nick r false coarse (l0 :: rest)).map
              (fun e => (e.1.1, (e.1.2 : ℚ))) := by
          unfold inMemorySeries
          rw [if_neg hcond]
        rw [hser] at hi
        rw [List.getElem_of_eq hser (by rw [hser] at *; exact hi)]
        have hil : i < (inMemoryEntries vn nick r false coarse (l0 :: rest)).length := by
          simpa using hi
        have hmem : ((inMemoryEntries vn nick r false coarse (l0 :: rest))[i]).1.2 = 0 :=
          walkSeries_snd_zero false (matchedAt vn nick coarse r (l0 :: rest))
            (totalAt vn nick coarse (l0 :: rest)) (inMemoryWalkKeys coarse (l0 :: rest)) 0 htm
            _ (List.getElem_mem hil)
        simp [hmem]
  · cases logs with
    | nil => intro i hi; simp [inMemoryQueryLogsSingle] at hi
    | cons l0 rest =>
      intro i hi hz
      rw [inMemorySingle_eq_series] at hi
      rw [List.getElem_of_eq (inMemorySingle_eq_series vn r true coarse nick true nt l0 rest)
        (by rw [inMemorySingle_eq_series]; exact hi)]
      by_cases hcond : (true = true) ∧
          0 < ((inMemoryWalkKeys coarse (l0 :: rest)).map
            (matchedAt vn nick coarse r (l0 :: rest))).sum
      · have hser : inMemorySeries vn r true coarse nick true nt (l0 :: rest) =
            normalizeSeries true (windowOf nt) (totalAt vn nick coarse (l0 :: rest))
              (inMemoryEntries vn nick r true coarse (l0 :: rest)) [] [] := by
          unfold inMemorySeries
          rw [if_pos hcond]
        rw [hser] at hi
        rw [List.getElem_of_eq hser (by rw [hser] at *; exact hi)]
        apply normalizeSeries_zero_cumulative
        intro hel
        have hik : i < (inMemoryWalkKeys coarse (l0 :: rest)).length := by
          rw [normalizeSeries_length, inMemoryEntries, walkSeries_length] at hi
          exact hi
        have hil : i < (inMemoryEntries vn nick r true coarse (l0 :: rest)).length := by
          rw [inMemoryEntries, walkSeries_length]
          exact hik
        have hget := walkSeries_getElem true (matchedAt vn nick coarse r (l0 :: rest))
          (totalAt vn nick coarse (l0 :: rest)) (inMemoryWalkKeys coarse (l0 :: rest)) 0 0 i hik
          (by rw [walkSeries_length]; exact hik)
        have hval : ((inMemoryEntries vn nick r true coarse (l0 :: rest))[i]).2 =
            0 + (((inMemoryWalkKeys coarse (l0 :: rest)).take (i + 1)).map
              (totalAt vn nick coarse (l0 :: rest))).sum := congrArg Prod.snd hget
        rw [hval]
        omega
      · have htm : ((inMemoryWalkKeys coarse (l0 :: rest)).map
            (matchedAt vn nick coarse r (l0 :: rest))).sum = 0 := by
          rcases Nat.eq_zero_or_pos ((inMemoryWalkKeys coarse (l0 :: rest)).map
            (matchedAt vn nick coarse r (l0 :: rest))).sum with h0 | hpos
          · exact h0
          · exact absurd ⟨rfl, hpos⟩ hcond
        have hser : inMemorySeries vn r true coarse nick true nt (l0 :: rest) =
            (inMemoryEntries vn nick r true coarse (l0 :: rest)).map
              (fun e => (e.1.1, (e.1.2 : ℚ))) := by
          unfold inMemorySeries
          rw [if_neg hcond]
        rw [hser] at hi
        rw [List.getElem_of_eq hser (by rw [hser] at *; exact hi)]
        have hil : i < (inMemoryEntries vn nick r true coarse (l0 :: rest)).length := by
          simpa using hi
        have hmem : ((inMemoryEntries vn nick r true coarse (l0 :: rest))[i]).1.2 = 0 :=
          walkSeries_snd_zero true (matchedAt vn nick coarse r (l0 :: rest))
            (totalAt vn nick coarse (l0 :: rest)) (inMemoryWalkKeys coarse (l0 :: rest)) 0 htm
            _ (List.getElem_mem hil)
        simp [hmem]
  · intro w ys h i hi hz
    unfold sqliteYs at h
    simp only [if_pos rfl] at h
    by_cases h2 : w = 0
    · rw [if_pos h2] at h
      exact Option.noConfusion h
    · rw [if_neg h2] at h
      injection h with h
      subst h
      rw [List.getElem_map]
      rw [List.getElem_range]
      rw [if_pos hz]
  · rintro rfl cumulative
    unfold sqliteQueryLogsSingle
    by_cases herr : sqliteFilterError vn (some r) nick = true
    · rw [if_pos herr]
    · rw [if_neg herr]
      have hgd : sqliteGroupDates coarse ([] : List Line) = [] := by
        unfold sqliteGroupDates sqliteSpine
        simp [dedupFirst]
      have hys : sqliteYs vn nick r coarse true .default [] = some [] := by
        unfold sqliteYs sqliteCnts
        rw [hgd]
        rfl
      simp [hys, hgd]

/-- Witness for C4: the empty-corpus conjunct applied concretely — the
SQLite global normalization on an empty corpus returns an empty series. -/
theorem c4_witness :
    sqliteQueryLogsSingle [] (some rxHit) true false none true .default [] = some [] :=
  (c4_normalize_zero_total [] rxHit false none .default []).2.2.2 rfl true

theorem c9_eval :
    sqliteQueryLogsSingle [] (some rxHit) false false none false .default linesC3 =
      some [((0 : Nat), (1 : ℚ)), (86400, 0)] := by
  have hgd : sqliteGroupDates false linesC3 = [⟨1970, 1, 1⟩, ⟨1970, 1, 2⟩] := by
    unfold sqliteGroupDates
    rw [show (sqliteSpine linesC3).map (sqliteKeyDate false) =
      [(⟨1970, 1, 1⟩ : Date), ⟨1970, 1, 2⟩] from by decide]
    rw [show dedupFirst [(⟨1970, 1, 1⟩ : Date), ⟨1970, 1, 2⟩] =
      [⟨1970, 1, 1⟩, ⟨1970, 1, 2⟩] from by simp [dedupFirst]]
    decide
  have hys : sqliteYs [] none rxHit false false .default linesC3 = some [(1 : ℚ), 0] := by
    unfold sqliteYs sqliteCnts
    rw [hgd]
    decide
  unfold sqliteQueryLogsSingle
  rw [if_neg (show ¬sqliteFilterError [] (some rxHit) none = true from by decide)]
  simp only [hys, hgd]
  decide

/-- Witness for C9: the SQLite conjunct applied at a concrete two-day corpus,
its query result evaluated concretely by `c9_eval`. -/
theorem c9_witness :
    List.Chain' (fun p q : Nat × ℚ => p.1 < q.1) [((0 : Nat), (1 : ℚ)), (86400, 0)] :=
  (c9_series_x_strictly_ascending [] (some rxHit) false false none false .default
    linesC3).2 _ c9_eval

/-! ### C6: search_day_logs within-day ordering -/

/-- A one-day corpus with two matching events in stored order. -/
def linesC6 : List Line := [⟨0, "A", "hit"⟩, ⟨60, "B", "hit"⟩]

/-- C6 — the within-day ordering of the two engines diverges on a one-day
corpus with two matches: the in-memory engine returns the day's matches in
stored (insertion) order, as claimed, but the SQLite engine orders the rows
by `timestamp DESC`, so within the day the later event comes first.  The
claim, quantified over both engines' `search_day_logs`, is false of the
code: the SQLite result here is the reverse of the claimed order. -/
theorem c6_search_day_order :
    inMemorySearchAll rxHit linesC6 =
      [(⟨1970, 1, 1⟩, 0, ⟨0, "A", "hit"⟩, 0, 3),
       (⟨1970, 1, 1⟩, 1, ⟨60, "B", "hit"⟩, 0, 3)] ∧
    sqliteSearchDayLogs (some rxHit) linesC6 =
      [(⟨1970, 1, 1⟩, 1, ⟨60, "B", "hit"⟩, 0, 3),
       (⟨1970, 1, 1⟩, 0, ⟨0, "A", "hit"⟩, 0, 3)] := by
  constructor
  · decide
  · simp only [sqliteSearchDayLogs]
    rw [show dedupFirst (List.filter (fun l => reMatches rxHit l.message) linesC6) =
      linesC6 from by
        rw [show List.filter (fun l => reMatches rxHit l.message) linesC6 = linesC6 from
          by decide]
        simp [linesC6, dedupFirst]]
    decide

/-! ### C8: trending minimum frequency -/

/-- A corpus whose word `foo` occurs only outside the lookback window. -/
def linesC8 : List Line := [⟨0, "A", "foo"⟩, ⟨864000, "B", "bar"⟩]

/-- A corpus whose word `foo` occurs twice inside the lookback window. -/
def linesC8w : List Line := [⟨864000, "A", "foo"⟩, ⟨864000, "B", "foo"⟩]

unseal Rat.inv Rat.mul Rat.add Rat.sub in
/-- C8, counterexample — with `min_freq=1` the in-memory engine includes
`foo`, whose raw occurrence count in the recent window is `0`: the
smoothing value `1/(T+1)` of an absent word passes the cutoff
`min_freq/(T+1)` when `min_freq = 1`, so the claim fails for `K = 1`. -/
theorem c8_counterexample :
    ("foo", (1 : ℚ) / 2) ∈ inMemoryGetTrending 864000 10 1 1 linesC8 ∧
    freqCount (wordsOfLogs (sliceLogs 864000 (1 * 24 * 60 * 60) linesC8)) "foo" = 0 := by
  constructor
  · simp only [inMemoryGetTrending]
    rw [show dedupFirst (wordsOfLogs linesC8) = ["foo", "bar"] from by
      rw [show wordsOfLogs linesC8 = ["foo", "bar"] from by decide]
      simp [dedupFirst]]
    decide
  · decide

/-- C8 (amended) — `get_trending(min_freq=K)` never includes a word whose
raw occurrence count in the recent lookback window is below `K`, provided
(for the in-memory engine) `K ≥ 2`: its smoothed value for an absent word
is `1/(T+1)`, which passes the cutoff when `K ≤ 1`.  The SQLite engine
filters on the raw recent count, so its half holds for every `K`. -/
theorem c8_trending_min_freq (now top minFreq lookbackDays : Nat) (logs : List Line) :
    (2 ≤ minFreq → ∀ w v, (w, v) ∈ inMemoryGetTrending now top minFreq lookbackDays logs →
      minFreq ≤ freqCount (wordsOfLogs (sliceLogs now (lookbackDays * 24 * 60 * 60) logs)) w) ∧
    (∀ w v, (w, v) ∈ sqliteGetTrending top minFreq lookbackDays logs →
      minFreq ≤ freqCount (((sqliteWordsSource logs).filter
        (sqliteRecentLine logs lookbackDays)).flatMap (fun l => sqlWordsOf l.message)) w) := by
  constructor
  · intro hK w v hmem
    simp only [inMemoryGetTrending] at hmem
    have h1 := List.take_subset _ _ hmem
    rw [List.mem_reverse] at h1
    have h2 := (List.perm_insertionSort (fun a b : String × ℚ => a.2 ≤ b.2) _).mem_iff.mp h1
    obtain ⟨w0, hw0, hf⟩ := List.mem_filterMap.mp h2
    set recentWs := wordsOfLogs (sliceLogs now (lookbackDays * 24 * 60 * 60) logs) with hrw
    set T : ℚ := (recentWs.length : ℚ) + 1 with hT
    have hTpos : (0 : ℚ) < T := by positivity
    by_cases hcut : (if 0 < freqCount recentWs w0 then (freqCount recentWs w0 : ℚ) / T
        else 1 / T) < (minFreq : ℚ) / T
    · rw [if_pos hcut] at hf
      exact absurd hf (by simp)
    · rw [if_neg hcut] at hf
      simp only [Option.some.injEq, Prod.mk.injEq] at hf
      obtain ⟨rfl, -⟩ := hf
      rw [not_lt] at hcut
      by_cases hc : 0 < freqCount recentWs w0
      · rw [if_pos hc] at hcut
        have := (div_le_div_iff_of_pos_right hTpos).mp hcut
        exact_mod_cast this
      · rw [if_neg hc] at hcut
        have h1le : (minFreq : ℚ) ≤ 1 := (div_le_div_iff_of_pos_right hTpos).mp hcut
        have : minFreq ≤ 1 := by exact_mod_cast h1le
        omega
  · intro w v hmem
    simp only [sqliteGetTrending] at hmem
    have h1 := List.take_subset _ _ hmem
    have h2 := (List.perm_insertionSort (fun a b : String × ℚ => b.2 ≤ a.2) _).mem_iff.mp h1
    obtain ⟨w0, hw0, hf⟩ := List.mem_filterMap.mp h2
    by_cases hc : minFreq ≤ freqCount (((sqliteWordsSource logs).filter
        (sqliteRecentLine logs lookbackDays)).flatMap (fun l => sqlWordsOf l.message)) w0
    · rw [if_pos hc] at hf
      simp only [Option.some.injEq, Prod.mk.injEq] at hf
      obtain ⟨rfl, -⟩ := hf
      exact hc
    · rw [if_neg hc] at hf
      exact absurd hf (by simp)

unseal Rat.inv Rat.mul Rat.add Rat.sub in
theorem c8_eval : inMemoryGetTrending 864000 10 2 1 linesC8w = [("foo", 0)] := by
  simp only [inMemoryGetTrending]
  rw [show dedupFirst (wordsOfLogs linesC8w) = ["foo"] from by
    rw [show wordsOfLogs linesC8w = ["foo", "foo"] from by decide]
    simp [dedupFirst]]
  decide

/-- Witness for C8: the in-memory conjunct applied at a concrete corpus
where `foo` occurs twice in the window, with `min_freq = 2`. -/
theorem c8_witness :
    2 ≤ freqCount (wordsOfLogs (sliceLogs 864000 (1 * 24 * 60 * 60) linesC8w)) "foo" :=
  (c8_trending_min_freq 864000 10 2 1 linesC8w).1 (by decide) "foo" 0 (by simp [c8_eval])

/-! ### C5: invalid regular-expression patterns -/

/-- C5, counterexample — the SQLite `count_occurrences` batches every
pattern into one SQL statement, so one invalid pattern zeroes the whole
call (modelled `none`), not "that pattern only": the in-memory engine
keeps the valid pattern's count `1` in the same batch. -/
theorem c5_counterexample :
    (inMemoryCountOccurrences [] [("good", some rxHit), ("bad", none)]
      false false linesC3).2 = [("good", 1, []), ("bad", 0, [])] ∧
    sqliteCountOccurrences [] [("good", some rxHit), ("bad", none)]
      false false linesC3 = none := by
  constructor
  · decide
  · rfl

/-- C5 (amended) — an invalid pattern (failed `re.compile`, modelled as
`compiled = none`) yields an empty/zero result for that pattern only and is
never raised, for: both engines' `query_logs` (per-pattern empty list), the
in-memory `count_occurrences` (per-pattern zero rows, each row depending on
its own query alone), and the in-memory single count.  The SQLite
`count_occurrences`, however, batches all patterns into one SQL statement:
one invalid pattern makes the whole statement raise `OperationalError`,
caught and turned into the scalar `0` for the whole call (`none` here). -/
theorem c5_invalid_pattern (vn : AliasTable) (cumulative coarse nickSplit : Bool)
    (nick : Option String) (normalize : Bool) (nt : NormalizeType)
    (logs : List Line) (queries : List (String × Option Regex)) :
    inMemoryQueryLogsSingle vn none cumulative coarse nick normalize nt logs = [] ∧
    sqliteQueryLogsSingle vn none cumulative coarse nick normalize nt logs = some [] ∧
    inMemoryCountSingle vn none nick logs = 0 ∧
    ((inMemoryCountOccurrences vn queries nickSplit false logs).2 =
      queries.map (fun q =>
        (q.1, inMemoryCountSingle vn q.2 none logs,
         if nickSplit then
           (sortedNicks vn).map (fun n => inMemoryCountSingle vn q.2 (some n) logs)
         else []))) ∧
    ((∃ q ∈ queries, q.2 = none) →
      sqliteCountOccurrences vn queries nickSplit false logs = none) := by
  refine ⟨rfl, ?_, rfl, rfl, ?_⟩
  · unfold sqliteQueryLogsSingle
    split_ifs <;> rfl
  · rintro ⟨q, hq, hnone⟩
    unfold sqliteCountOccurrences
    rw [if_pos (List.any_eq_true.mpr ⟨q, hq, by rw [hnone]; rfl⟩)]

/-- Witness for C5: the batch-zeroing conjunct applied at the concrete
two-query batch of the counterexample. -/
theorem c5_witness :
    sqliteCountOccurrences [] [("good", some rxHit), ("bad", none)]
      false false linesC3 = none :=
  (c5_invalid_pattern [] false false false none false .default linesC3
    [("good", some rxHit), ("bad", none)]).2.2.2.2 ⟨("bad", none), by simp, rfl⟩

/-! ### C2: day coverage of query_logs -/

/-- A two-day corpus stored in reverse chronological order. -/
def linesC2 : List Line := [⟨86400, "A", "hit"⟩, ⟨0, "B", "hit"⟩]

theorem walkSeries_false_proj (mc tc : Nat → Nat) :
    ∀ (ks : List Nat) (tm tp : Nat),
      (walkSeries false mc tc ks tm tp).map (fun e => (e.1.1, (e.1.2 : ℚ))) =
        ks.map (fun k => (k, (mc k : ℚ))) := by
  intro ks
  induction ks with
  | nil => intro tm tp; rfl
  | cons k ks ih =>
    intro tm tp
    simp only [walkSeries, List.map_cons, Bool.false_eq_true, if_false]
    rw [ih]

theorem dedupFirst_eq_self [DecidableEq α] : ∀ {l : List α}, l.Nodup → dedupFirst l = l := by
  intro l
  induction l using dedupFirst.induct with
  | case1 => intro h; simp [dedupFirst]
  | case2 x xs ih =>
    intro h
    rw [List.nodup_cons] at h
    have hf : List.filter (fun y => decide (y ≠ x)) xs = xs :=
      List.filter_eq_self.mpr (fun a ha => by
        simp only [decide_eq_true_eq]
        exact fun heq => h.1 (heq ▸ ha))
    have h2 := ih (hf.symm ▸ h.2)
    rw [hf] at h2
    rw [dedupFirst, hf, h2]

/-- C2, counterexample — the in-memory day walk runs from `logs[0]` to
`logs[-1]`: on a corpus stored in reverse chronological order its range is
empty and `query_logs` returns no series points at all, although the
corpus has events on two distinct days. -/
theorem c2_counterexample :
    inMemoryQueryLogsSingle [] (some rxHit) false false none false .default linesC2 = [] ∧
    (∃ l ∈ linesC2, dayOfTs l.ts = 0) ∧ (∃ l ∈ linesC2, dayOfTs l.ts = 1) := by
  refine ⟨by decide, by decide, by decide⟩

/-- C2 (amended) — with `coarse=false`, `cumulative=false`,
`normalize=false`: the in-memory series has exactly one point per calendar
day from the first to the last stored entry inclusive — each day's `y`
being that day's match count, `0` where nothing matches — provided the
first entry is earliest, the last entry is latest, and the first entry's
time of day is not after the last entry's (otherwise its day walk, which
steps in wall-clock seconds from `logs[0].ts` while `current <=
logs[-1].ts`, stops early or never starts).  The SQLite series covers
every day from the corpus's true minimum to its maximum day in any
insertion order, whenever its filters compile. -/
theorem c2_day_coverage (vn : AliasTable) (r : Regex) (nick : Option String)
    (nt : NormalizeType) (l0 : Line) (rest : List Line) :
    ((∀ l ∈ l0 :: rest, l0.ts ≤ l.ts) →
     (∀ l ∈ l0 :: rest, l.ts ≤ ((l0 :: rest).getLastD l0).ts) →
     l0.ts % 86400 ≤ ((l0 :: rest).getLastD l0).ts % 86400 →
      inMemoryQueryLogsSingle vn (some r) false false nick false nt (l0 :: rest) =
        (List.range (dayOfTs ((l0 :: rest).getLastD l0).ts - dayOfTs l0.ts + 1)).map
          (fun i => (86400 * (dayOfTs l0.ts + i),
            (matchedAt vn nick false r (l0 :: rest) (86400 * (dayOfTs l0.ts + i)) : ℚ)))) ∧
    (sqliteFilterError vn (some r) nick = false →
      sqliteQueryLogsSingle vn (some r) false false nick false nt (l0 :: rest) =
        some ((List.range (sqliteMaxDay (l0 :: rest) - sqliteMinDay (l0 :: rest) + 1)).map
          (fun i => (86400 * (sqliteMinDay (l0 :: rest) + i),
            (sqliteMatchCount vn nick r false (l0 :: rest)
              (civilFromDays (sqliteMinDay (l0 :: rest) + i)) : ℚ))))) := by
  constructor
  · intro hlo hhi htod
    have hts : l0.ts ≤ ((l0 :: rest).getLastD l0).ts :=
      hhi l0 (List.mem_cons_self _ _)
    rw [inMemorySingle_eq_series, inMemorySeries_not_normalize]
    rw [show inMemoryEntries vn nick r false false (l0 :: rest) =
      walkSeries false (matchedAt vn nick false r (l0 :: rest))
        (totalAt vn nick false (l0 :: rest)) (inMemoryWalkKeys false (l0 :: rest)) 0 0
      from rfl]
    rw [walkSeries_false_proj]
    have hkeys : inMemoryWalkKeys false (l0 :: rest) =
        (List.range (dayOfTs ((l0 :: rest).getLastD l0).ts - dayOfTs l0.ts + 1)).map
          (fun i => 86400 * (dayOfTs l0.ts + i)) := by
      show dedupConsec ((walkTimes l0.ts ((l0 :: rest).getLastD l0).ts).map
        (getKey false)) = _
      unfold walkTimes
      rw [if_pos hts]
      rw [List.map_map]
      rw [List.map_congr_left (fun i hi => by
        show getKey false (l0.ts + 86400 * i) = 86400 * (dayOfTs l0.ts + i)
        rw [getKey_false]
        unfold dayOfTs
        omega)]
      rw [show (((l0 :: rest).getLastD l0).ts - l0.ts) / 86400 =
        dayOfTs ((l0 :: rest).getLastD l0).ts - dayOfTs l0.ts from by
          unfold dayOfTs; omega]
      apply dedupConsec_eq_self
      apply List.chain'_iff_pairwise.mpr
      apply List.pairwise_map.mpr
      exact (List.pairwise_lt_range _).imp (fun hij => by omega)
    rw [hkeys, List.map_map]
    rfl
  · intro herr
    have hys : sqliteYs vn nick r false false nt (l0 :: rest) =
        some (sqliteCnts vn nick r false (l0 :: rest)) := rfl
    have hgd : sqliteGroupDates false (l0 :: rest) =
        (List.range (sqliteMaxDay (l0 :: rest) - sqliteMinDay (l0 :: rest) + 1)).map
          (fun i => civilFromDays (sqliteMinDay (l0 :: rest) + i)) := by
      unfold sqliteGroupDates
      have hsp : (sqliteSpine (l0 :: rest)).map (sqliteKeyDate false) =
          (List.range (sqliteMaxDay (l0 :: rest) - sqliteMinDay (l0 :: rest) + 1)).map
            (fun i => civilFromDays (sqliteMinDay (l0 :: rest) + i)) := by
        show (List.range' (sqliteMinDay (l0 :: rest))
            (sqliteMaxDay (l0 :: rest) - sqliteMinDay (l0 :: rest) + 1)).map
            (sqliteKeyDate false) = _
        rw [List.range'_eq_map_range, List.map_map]
        apply List.map_congr_left
        intro i hi
        show sqliteKeyDate false (sqliteMinDay (l0 :: rest) + i) = _
        unfold sqliteKeyDate
        rfl
      rw [hsp]
      have hnd : ((List.range (sqliteMaxDay (l0 :: rest) - sqliteMinDay (l0 :: rest) + 1)).map
          (fun i => civilFromDays (sqliteMinDay (l0 :: rest) + i))).Nodup := by
        apply List.Nodup.map
        · intro a b hab
          have := civilFromDays_injective hab
          omega
        · exact List.nodup_range _
      rw [dedupFirst_eq_self hnd]
      apply List.Sorted.insertionSort_eq
      have hp : List.Pairwise Date.lexLt
          ((List.range (sqliteMaxDay (l0 :: rest) - sqliteMinDay (l0 :: rest) + 1)).map
            (fun i => civilFromDays (sqliteMinDay (l0 :: rest) + i))) :=
        List.pairwise_map.mpr ((List.pairwise_lt_range _).imp
          (fun hij => civilFromDays_lexLt (by omega)))
      exact hp.imp (fun h => Or.inl h)
    have hcnts : sqliteCnts vn nick r false (l0 :: rest) =
        (List.range (sqliteMaxDay (l0 :: rest) - sqliteMinDay (l0 :: rest) + 1)).map
          (fun i => (sqliteMatchCount vn nick r false (l0 :: rest)
            (civilFromDays (sqliteMinDay (l0 :: rest) + i)) : ℚ)) := by
      unfold sqliteCnts
      rw [hgd, List.map_map]
      rfl
    unfold sqliteQueryLogsSingle
    rw [if_neg (by rw [herr]; simp)]
    simp only [hys, hcnts, hgd, Bool.false_eq_true, if_false, List.map_map]
    rw [List.zip_map']
    rw [List.map_congr_left (fun i hi => by
      show ((mkTime (civilFromDays (sqliteMinDay (l0 :: rest) + i)),
        (sqliteMatchCount vn nick r false (l0 :: rest)
          (civilFromDays (sqliteMinDay (l0 :: rest) + i)) : ℚ)) : Nat × ℚ) = _
      rw [show mkTime (civilFromDays (sqliteMinDay (l0 :: rest) + i)) =
        86400 * (sqliteMinDay (l0 :: rest) + i) from by
          unfold mkTime; rw [daysFromCivil_civilFromDays]])]

/-- Witness for C2: the in-memory conjunct at a sorted two-day corpus and
the SQLite conjunct at the reverse-ordered two-day corpus. -/
theorem c2_witness :
    inMemoryQueryLogsSingle [] (some rxHit) false false none false .default linesC3 =
      (List.range (dayOfTs (86400 : Nat) - dayOfTs (0 : Nat) + 1)).map
        (fun i => (86400 * (dayOfTs (0 : Nat) + i),
          (matchedAt [] none false rxHit linesC3 (86400 * (dayOfTs (0 : Nat) + i)) : ℚ))) ∧
    sqliteQueryLogsSingle [] (some rxHit) false false none false .default linesC2 =
      some ((List.range (sqliteMaxDay linesC2 - sqliteMinDay linesC2 + 1)).map
        (fun i => (86400 * (sqliteMinDay linesC2 + i),
          (sqliteMatchCount [] none rxHit false linesC2
            (civilFromDays (sqliteMinDay linesC2 + i)) : ℚ)))) :=
  ⟨(c2_day_coverage [] rxHit none .default ⟨0, "A", "hit"⟩ [⟨86400, "A", "miss"⟩]).1
      (by decide) (by decide) (by decide),
   (c2_day_coverage [] rxHit none .default ⟨86400, "A", "hit"⟩ [⟨0, "B", "hit"⟩]).2
      (by decide)⟩

/-! ### C1: engine equivalence -/

/-- A three-line corpus: two lines on the first day (one matching), one
matching line on the second. -/
def linesC1 : List Line := [⟨0, "A", "hit"⟩, ⟨60, "B", "miss"⟩, ⟨86400, "C", "hit"⟩]

theorem sqliteFilterError_none (vn : AliasTable) (r : Regex) :
    sqliteFilterError vn (some r) none = false := rfl

theorem walkSeries_true_proj (mc tc : Nat → Nat) :
    ∀ (ks : List Nat) (tm tp : Nat),
      (walkSeries true mc tc ks tm tp).map (fun e => (e.1.1, (e.1.2 : ℚ))) =
        ks.zip (prefixSums (tm : ℚ) (ks.map (fun k => (mc k : ℚ)))) := by
  intro ks
  induction ks with
  | nil => intro tm tp; rfl
  | cons k ks ih =>
    intro tm tp
    simp only [walkSeries, List.map_cons, List.zip_cons_cons, prefixSums, if_true]
    rw [ih, Nat.cast_add]

theorem inMemoryWalkKeys_closed (l0 : Line) (rest : List Line)
    (hts : l0.ts ≤ ((l0 :: rest).getLastD l0).ts)
    (htod : l0.ts % 86400 ≤ ((l0 :: rest).getLastD l0).ts % 86400) :
    inMemoryWalkKeys false (l0 :: rest) =
      (List.range (dayOfTs ((l0 :: rest).getLastD l0).ts - dayOfTs l0.ts + 1)).map
        (fun i => 86400 * (dayOfTs l0.ts + i)) := by
  show dedupConsec ((walkTimes l0.ts ((l0 :: rest).getLastD l0).ts).map
    (getKey false)) = _
  unfold walkTimes
  rw [if_pos hts]
  rw [List.map_map]
  rw [List.map_congr_left (fun i hi => by
    show getKey false (l0.ts + 86400 * i) = 86400 * (dayOfTs l0.ts + i)
    rw [getKey_false]
    unfold dayOfTs
    omega)]
  rw [show (((l0 :: rest).getLastD l0).ts - l0.ts) / 86400 =
    dayOfTs ((l0 :: rest).getLastD l0).ts - dayOfTs l0.ts from by
      unfold dayOfTs; omega]
  apply dedupConsec_eq_self
  apply List.chain'_iff_pairwise.mpr
  apply List.pairwise_map.mpr
  exact (List.pairwise_lt_range _).imp (fun hij => by omega)

theorem sqliteGroupDates_closed (l0 : Line) (rest : List Line) :
    sqliteGroupDates false (l0 :: rest) =
      (List.range (sqliteMaxDay (l0 :: rest) - sqliteMinDay (l0 :: rest) + 1)).map
        (fun i => civilFromDays (sqliteMinDay (l0 :: rest) + i)) := by
  unfold sqliteGroupDates
  have hsp : (sqliteSpine (l0 :: rest)).map (sqliteKeyDate false) =
      (List.range (sqliteMaxDay (l0 :: rest) - sqliteMinDay (l0 :: rest) + 1)).map
        (fun i => civilFromDays (sqliteMinDay (l0 :: rest) + i)) := by
    show (List.range' (sqliteMinDay (l0 :: rest))
        (sqliteMaxDay (l0 :: rest) - sqliteMinDay (l0 :: rest) + 1)).map
        (sqliteKeyDate false) = _
    rw [List.range'_eq_map_range, List.map_map]
    apply List.map_congr_left
    intro i hi
    show sqliteKeyDate false (sqliteMinDay (l0 :: rest) + i) = _
    unfold sqliteKeyDate
    rfl
  rw [hsp]
  have hnd : ((List.range (sqliteMaxDay (l0 :: rest) - sqliteMinDay (l0 :: rest) + 1)).map
      (fun i => civilFromDays (sqliteMinDay (l0 :: rest) + i))).Nodup := by
    apply List.Nodup.map
    · intro a b hab
      have := civilFromDays_injective hab
      omega
    · exact List.nodup_range _
  rw [dedupFirst_eq_self hnd]
  apply List.Sorted.insertionSort_eq
  have hp : List.Pairwise Date.lexLt
      ((List.range (sqliteMaxDay (l0 :: rest) - sqliteMinDay (l0 :: rest) + 1)).map
        (fun i => civilFromDays (sqliteMinDay (l0 :: rest) + i))) :=
    List.pairwise_map.mpr ((List.pairwise_lt_range _).imp
      (fun hij => civilFromDays_lexLt (by omega)))
  exact hp.imp (fun h => Or.inl h)

theorem sqliteMinDay_eq {l0 : Line} {rest : List Line}
    (hlo : ∀ l ∈ l0 :: rest, l0.ts ≤ l.ts) :
    sqliteMinDay (l0 :: rest) = dayOfTs l0.ts := by
  unfold sqliteMinDay
  have h : ((l0 :: rest).map (fun l => dayOfTs l.ts)).min? = some (dayOfTs l0.ts) := by
    rw [List.min?_eq_some_iff']
    constructor
    · exact List.mem_map_of_mem _ (List.mem_cons_self _ _)
    · intro b hb
      obtain ⟨l, hl, rfl⟩ := List.mem_map.mp hb
      exact dayOfTs_mono (hlo l hl)
  rw [h]
  rfl

theorem sqliteMaxDay_eq {l0 : Line} {rest : List Line}
    (hhi : ∀ l ∈ l0 :: rest, l.ts ≤ ((l0 :: rest).getLastD l0).ts) :
    sqliteMaxDay (l0 :: rest) = dayOfTs ((l0 :: rest).getLastD l0).ts := by
  unfold sqliteMaxDay
  have hmem : (l0 :: rest).getLastD l0 ∈ l0 :: rest := by
    have h := List.getLastD_mem_cons (l0 :: rest) l0
    rcases List.mem_cons.mp h with heq | hm
    · rw [heq]; exact List.mem_cons_self _ _
    · exact hm
  have h : ((l0 :: rest).map (fun l => dayOfTs l.ts)).max? =
      some (dayOfTs ((l0 :: rest).getLastD l0).ts) := by
    rw [List.max?_eq_some_iff']
    constructor
    · exact List.mem_map_of_mem _ hmem
    · intro b hb
      obtain ⟨l, hl, rfl⟩ := List.mem_map.mp hb
      exact dayOfTs_mono (hhi l hl)
  rw [h]
  rfl

theorem dedupConsecAux_subset [DecidableEq α] :
    ∀ (l : List α) (prev : α), dedupConsecAux prev l ⊆ l := by
  intro l
  induction l with
  | nil => intro prev a ha; exact absurd ha (List.not_mem_nil a)
  | cons x xs ih =>
    intro prev a ha
    unfold dedupConsecAux at ha
    split_ifs at ha with hx
    · exact List.mem_cons_of_mem _ (ih prev ha)
    · rcases List.mem_cons.mp ha with rfl | ha
      · exact List.mem_cons_self _ _
      · exact List.mem_cons_of_mem _ (ih x ha)

theorem mem_dedupConsecAux [DecidableEq α] :
    ∀ (l : List α) (prev a : α), a ∈ l → a = prev ∨ a ∈ dedupConsecAux prev l := by
  intro l
  induction l with
  | nil => intro prev a ha; exact absurd ha (List.not_mem_nil a)
  | cons x xs ih =>
    intro prev a ha
    unfold dedupConsecAux
    split_ifs with hx
    · rcases List.mem_cons.mp ha with rfl | ha
      · exact Or.inl hx
      · exact ih prev a ha
    · rcases List.mem_cons.mp ha with rfl | ha
      · exact Or.inr (List.mem_cons_self _ _)
      · rcases ih x a ha with rfl | h
        · exact Or.inr (List.mem_cons_self _ _)
        · exact Or.inr (List.mem_cons_of_mem _ h)

theorem mem_dedupConsec [DecidableEq α] {l : List α} {a : α} :
    a ∈ dedupConsec l ↔ a ∈ l := by
  cases l with
  | nil => simp [dedupConsec]
  | cons x xs =>
    show a ∈ x :: dedupConsecAux x xs ↔ _
    constructor
    · intro h
      rcases List.mem_cons.mp h with rfl | h
      · exact List.mem_cons_self _ _
      · exact List.mem_cons_of_mem _ (dedupConsecAux_subset xs x h)
    · intro h
      rcases List.mem_cons.mp h with rfl | h
      · exact List.mem_cons_self _ _
      · rcases mem_dedupConsecAux xs x a h with rfl | h2
        · exact List.mem_cons_self _ _
        · exact List.mem_cons_of_mem _ h2

/-- The nick-filter configurations on which the two engines build the same
filter: no nick, or a known nick whose alias list is non-empty and already
lowercase.  (The in-memory scan tests `line['nick'].lower()` against the
stored alias strings while the SQL condition lowers the aliases too, and an
unknown or empty-alias nick makes the SQLite filter preparation fail where
the in-memory scan just skips every line.) -/
def nickCompatible (vn : AliasTable) (nick : Option String) : Bool :=
  match nick with
  | none => true
  | some n =>
    match lookupAliases vn n with
    | none => false
    | some aliases => !aliases.isEmpty && aliases.all (fun a => a.toLower == a)

theorem nickFilters_agree {vn : AliasTable} {nick : Option String}
    (hn : nickCompatible vn nick = true) (l : Line) :
    pyNickOk vn nick l = sqliteNickOk vn nick l := by
  unfold nickCompatible at hn
  unfold pyNickOk sqliteNickOk
  cases nick with
  | none => rfl
  | some n =>
    cases hl : lookupAliases vn n with
    | none =>
      simp only [hl] at hn
      exact absurd hn (by simp)
    | some aliases =>
      simp only [hl] at hn
      simp only [Bool.and_eq_true, List.all_eq_true] at hn
      have hmap : aliases.map String.toLower = aliases := by
        have h2 : aliases.map String.toLower = aliases.map id :=
          List.map_congr_left (fun a ha => eq_of_beq (hn.2 a ha))
        rw [h2, List.map_id]
      simp only [hl]
      rw [hmap]

theorem sqliteFilterError_of_compatible {vn : AliasTable} {nick : Option String}
    (hn : nickCompatible vn nick = true) (r : Regex) :
    sqliteFilterError vn (some r) nick = false := by
  unfold nickCompatible at hn
  unfold sqliteFilterError
  cases nick with
  | none => rfl
  | some n =>
    cases hl : lookupAliases vn n with
    | none =>
      simp only [hl] at hn
      exact absurd hn (by simp)
    | some aliases =>
      simp only [hl] at hn
      simp only [Bool.and_eq_true, List.all_eq_true] at hn
      simp only [hl]
      simp only [decide_eq_false_iff_not]
      intro h
      rw [h] at hn
      simp at hn

theorem mkTime_inj_of_valid {d1 d2 : Date} (h1 : d1.Valid) (h2 : d2.Valid)
    (h : mkTime d1 = mkTime d2) : d1 = d2 := by
  unfold mkTime at h
  have hd : daysFromCivil d1 = daysFromCivil d2 := by omega
  have e1 := civilFromDays_daysFromCivil h1
  have e2 := civilFromDays_daysFromCivil h2
  rw [← e1, ← e2, hd]

theorem getKey_eq_mkTime (coarse : Bool) (ts : Nat) :
    getKey coarse ts = mkTime (sqliteKeyDate coarse (dayOfTs ts)) := rfl

theorem matchedAt_eq_sqliteMatchCount (vn : AliasTable) (nick : Option String)
    (hn : nickCompatible vn nick = true) (r : Regex) (coarse : Bool)
    (logs : List Line) (dt : Date) (hdt : dt.Valid) :
    sqliteMatchCount vn nick r coarse logs dt =
      matchedAt vn nick coarse r logs (mkTime dt) := by
  unfold matchedAt sqliteMatchCount
  congr 1
  apply List.filter_congr
  intro l hl
  have hkey : decide (sqliteKeyDate coarse (dayOfTs l.ts) = dt) =
      decide (getKey coarse l.ts = mkTime dt) := by
    rw [decide_eq_decide]
    constructor
    · intro h
      rw [getKey_eq_mkTime, h]
    · intro h
      rw [getKey_eq_mkTime] at h
      exact mkTime_inj_of_valid (sqliteKeyDate_valid _ _) hdt h
  rw [hkey, ← nickFilters_agree hn l]
  cases pyNickOk vn nick l <;> cases reMatches r l.message <;>
    cases decide (getKey coarse l.ts = mkTime dt) <;> rfl

theorem mem_inMemoryWalkKeys (coarse : Bool) (l0 : Line) (rest : List Line)
    (hts : l0.ts ≤ ((l0 :: rest).getLastD l0).ts)
    (htod : l0.ts % 86400 ≤ ((l0 :: rest).getLastD l0).ts % 86400)
    (k : Nat) :
    k ∈ inMemoryWalkKeys coarse (l0 :: rest) ↔
      ∃ d, dayOfTs l0.ts ≤ d ∧ d ≤ dayOfTs ((l0 :: rest).getLastD l0).ts ∧
        k = mkTime (sqliteKeyDate coarse d) := by
  show k ∈ dedupConsec ((walkTimes l0.ts ((l0 :: rest).getLastD l0).ts).map
    (getKey coarse)) ↔ _
  rw [mem_dedupConsec]
  unfold walkTimes
  rw [if_pos hts]
  rw [List.map_map]
  rw [List.mem_map]
  constructor
  · rintro ⟨i, hi, rfl⟩
    rw [List.mem_range] at hi
    refine ⟨dayOfTs l0.ts + i, by omega, ?_, ?_⟩
    · unfold dayOfTs at *
      omega
    · show getKey coarse (l0.ts + 86400 * i) = _
      rw [getKey_eq_mkTime]
      have hday : dayOfTs (l0.ts + 86400 * i) = dayOfTs l0.ts + i := by
        unfold dayOfTs
        omega
      rw [hday]
  · rintro ⟨d, hd1, hd2, rfl⟩
    refine ⟨d - dayOfTs l0.ts, ?_, ?_⟩
    · rw [List.mem_range]
      unfold dayOfTs at *
      omega
    · show getKey coarse (l0.ts + 86400 * (d - dayOfTs l0.ts)) = _
      rw [getKey_eq_mkTime]
      have hday : dayOfTs (l0.ts + 86400 * (d - dayOfTs l0.ts)) = d := by
        unfold dayOfTs at *
        omega
      rw [hday]

theorem mem_sqliteGroupDates (coarse : Bool) (l0 : Line) (rest : List Line)
    (hmm : sqliteMinDay (l0 :: rest) ≤ sqliteMaxDay (l0 :: rest)) (dt : Date) :
    dt ∈ sqliteGroupDates coarse (l0 :: rest) ↔
      ∃ d, sqliteMinDay (l0 :: rest) ≤ d ∧ d ≤ sqliteMaxDay (l0 :: rest) ∧
        dt = sqliteKeyDate coarse d := by
  unfold sqliteGroupDates
  rw [List.mem_insertionSort, mem_dedupFirst]
  show dt ∈ (List.range' (sqliteMinDay (l0 :: rest))
    (sqliteMaxDay (l0 :: rest) - sqliteMinDay (l0 :: rest) + 1)).map
      (sqliteKeyDate coarse) ↔ _
  rw [List.mem_map]
  constructor
  · rintro ⟨d, hd, rfl⟩
    rw [List.mem_range'_1] at hd
    exact ⟨d, hd.1, by omega, rfl⟩
  · rintro ⟨d, hd1, hd2, rfl⟩
    exact ⟨d, List.mem_range'_1.mpr ⟨hd1, by omega⟩, rfl⟩

theorem inMemoryWalkKeys_eq_groupDates (coarse : Bool) (l0 : Line) (rest : List Line)
    (hlo : ∀ l ∈ l0 :: rest, l0.ts ≤ l.ts)
    (hhi : ∀ l ∈ l0 :: rest, l.ts ≤ ((l0 :: rest).getLastD l0).ts)
    (htod : l0.ts % 86400 ≤ ((l0 :: rest).getLastD l0).ts % 86400) :
    inMemoryWalkKeys coarse (l0 :: rest) =
      (sqliteGroupDates coarse (l0 :: rest)).map mkTime := by
  have hts : l0.ts ≤ ((l0 :: rest).getLastD l0).ts := hhi l0 (List.mem_cons_self _ _)
  have hmin := sqliteMinDay_eq hlo
  have hmax := sqliteMaxDay_eq hhi
  have hmm : sqliteMinDay (l0 :: rest) ≤ sqliteMaxDay (l0 :: rest) := by
    rw [hmin, hmax]
    exact dayOfTs_mono hts
  have h1 : List.Pairwise (· < ·) (inMemoryWalkKeys coarse (l0 :: rest)) :=
    List.chain'_iff_pairwise.mp (walkKeys_chain coarse (l0 :: rest))
  have h2 : List.Pairwise (· < ·) ((sqliteGroupDates coarse (l0 :: rest)).map mkTime) := by
    apply List.pairwise_map.mpr
    exact (sqliteGroupDates_pairwise coarse (l0 :: rest)).imp_of_mem
      (fun ha hb hr =>
        mkTime_lt_of_lexLt (sqliteGroupDates_valid ha) (sqliteGroupDates_valid hb) hr)
  have hmem : ∀ k, k ∈ inMemoryWalkKeys coarse (l0 :: rest) ↔
      k ∈ (sqliteGroupDates coarse (l0 :: rest)).map mkTime := by
    intro k
    rw [mem_inMemoryWalkKeys coarse l0 rest hts htod k]
    rw [List.mem_map]
    constructor
    · rintro ⟨d, hd1, hd2, rfl⟩
      refine ⟨sqliteKeyDate coarse d,
        (mem_sqliteGroupDates coarse l0 rest hmm _).mpr ⟨d, ?_, ?_, rfl⟩, rfl⟩
      · rw [hmin]
        exact hd1
      · rw [hmax]
        exact hd2
    · rintro ⟨dt, hdt, rfl⟩
      obtain ⟨d, hd1, hd2, rfl⟩ := (mem_sqliteGroupDates coarse l0 rest hmm dt).mp hdt
      refine ⟨d, ?_, ?_, rfl⟩
      · rw [hmin] at hd1
        exact hd1
      · rw [hmax] at hd2
        exact hd2
  exact List.eq_of_perm_of_sorted
    ((List.perm_ext_iff_of_nodup (h1.imp (fun h => Nat.ne_of_lt h))
      (h2.imp (fun h => Nat.ne_of_lt h))).mpr hmem)
    (h1.imp (fun h => Nat.le_of_lt h))
    (h2.imp (fun h => Nat.le_of_lt h))

unseal Rat.inv Rat.mul Rat.add Rat.sub in
/-- C1, counterexample — two divergences refute the claim as stated:
(1) `normalize=true` (default type): the in-memory engine divides each
period's match count by that period's own total, while the SQLite engine
divides every count by the corpus size, so the engines return `[1/2, 1]`
versus `[1/3, 1/3]` on the same corpus and parameters; (2) a nick absent
from the alias table: the in-memory scan skips every line and returns an
all-zero series over the walked days, while the SQLite filter preparation
fails and the query returns an empty series. -/
theorem c1_counterexample :
    inMemoryQueryLogsSingle [] (some rxHit) false false none true .default linesC1 =
      [(0, (1 : ℚ) / 2), (86400, 1)] ∧
    sqliteQueryLogsSingle [] (some rxHit) false false none true .default linesC1 =
      some [(0, (1 : ℚ) / 3), (86400, 1 / 3)] ∧
    some (inMemoryQueryLogsSingle [] (some rxHit) false false none true .default linesC1) ≠
      sqliteQueryLogsSingle [] (some rxHit) false false none true .default linesC1 ∧
    inMemoryQueryLogsSingle [] (some rxHit) false false (some "x") false .default linesC3 =
      [(0, (0 : ℚ)), (86400, 0)] ∧
    sqliteQueryLogsSingle [] (some rxHit) false false (some "x") false .default linesC3 =
      some [] := by
  have h1 : inMemoryQueryLogsSingle [] (some rxHit) false false none true .default linesC1 =
      [(0, (1 : ℚ) / 2), (86400, 1)] := by decide
  have hgd : sqliteGroupDates false linesC1 = [⟨1970, 1, 1⟩, ⟨1970, 1, 2⟩] := by
    unfold sqliteGroupDates
    rw [show (sqliteSpine linesC1).map (sqliteKeyDate false) =
      [(⟨1970, 1, 1⟩ : Date), ⟨1970, 1, 2⟩] from by decide]
    rw [show dedupFirst [(⟨1970, 1, 1⟩ : Date), ⟨1970, 1, 2⟩] =
      [⟨1970, 1, 1⟩, ⟨1970, 1, 2⟩] from by simp [dedupFirst]]
    decide
  have hys : sqliteYs [] none rxHit false true .default linesC1 =
      some [(1 : ℚ) / 3, 1 / 3] := by
    unfold sqliteYs sqliteCnts
    rw [hgd]
    decide
  have h2 : sqliteQueryLogsSingle [] (some rxHit) false false none true .default linesC1 =
      some [(0, (1 : ℚ) / 3), (86400, 1 / 3)] := by
    unfold sqliteQueryLogsSingle
    rw [if_neg (show ¬sqliteFilterError [] (some rxHit) none = true from by decide)]
    simp only [hys, hgd]
    decide
  refine ⟨h1, h2, ?_, by decide, by decide⟩
  rw [h1, h2]
  decide

/-- C1 (amended) — for `normalize=false`, any `coarse` and `cumulative`,
any nick filter on which the two engines build the same condition (no
nick, or a known nick with a non-empty, already-lowercase alias list), and
a corpus whose first stored entry is earliest, whose last stored entry is
latest, and whose first entry's time of day is not after the last entry's,
the two engines return identical series: the SQLite result is `some` of
the in-memory result. -/
theorem c1_engine_equivalence (vn : AliasTable) (r : Regex) (cumulative coarse : Bool)
    (nick : Option String) (nt : NormalizeType) (l0 : Line) (rest : List Line)
    (hn : nickCompatible vn nick = true)
    (hlo : ∀ l ∈ l0 :: rest, l0.ts ≤ l.ts)
    (hhi : ∀ l ∈ l0 :: rest, l.ts ≤ ((l0 :: rest).getLastD l0).ts)
    (htod : l0.ts % 86400 ≤ ((l0 :: rest).getLastD l0).ts % 86400) :
    sqliteQueryLogsSingle vn (some r) cumulative coarse nick false nt (l0 :: rest) =
      some (inMemoryQueryLogsSingle vn (some r) cumulative coarse nick false nt
        (l0 :: rest)) := by
  have hA := inMemoryWalkKeys_eq_groupDates coarse l0 rest hlo hhi htod
  have hys : sqliteYs vn nick r coarse false nt (l0 :: rest) =
      some (sqliteCnts vn nick r coarse (l0 :: rest)) := rfl
  have hcnts : sqliteCnts vn nick r coarse (l0 :: rest) =
      (sqliteGroupDates coarse (l0 :: rest)).map
        (fun dt => (matchedAt vn nick coarse r (l0 :: rest) (mkTime dt) : ℚ)) := by
    unfold sqliteCnts
    apply List.map_congr_left
    intro dt hdt
    rw [matchedAt_eq_sqliteMatchCount vn nick hn r coarse (l0 :: rest) dt
      (sqliteGroupDates_valid hdt)]
  unfold sqliteQueryLogsSingle
  rw [if_neg (by rw [sqliteFilterError_of_compatible hn]; simp)]
  simp only [hys]
  rw [inMemorySingle_eq_series, inMemorySeries_not_normalize]
  rw [show inMemoryEntries vn nick r cumulative coarse (l0 :: rest) =
    walkSeries cumulative (matchedAt vn nick coarse r (l0 :: rest))
      (totalAt vn nick coarse (l0 :: rest)) (inMemoryWalkKeys coarse (l0 :: rest)) 0 0
    from rfl]
  cases cumulative with
  | false =>
    rw [walkSeries_false_proj, hA, hcnts]
    simp only [Bool.false_eq_true, if_false]
    rw [List.zip_map', List.map_map]
    rfl
  | true =>
    rw [walkSeries_true_proj, hA, hcnts]
    simp only [if_pos rfl, Nat.cast_zero]
    rw [List.map_map]
    rfl

/-- Witness for C1 at the sorted two-day corpus, for both a fine-grained
non-cumulative query and a coarse cumulative one. -/
theorem c1_witness :
    sqliteQueryLogsSingle [] (some rxHit) false false none false .default linesC3 =
      some (inMemoryQueryLogsSingle [] (some rxHit) false false none false .default
        linesC3) ∧
    sqliteQueryLogsSingle [] (some rxHit) true true none false .default linesC3 =
      some (inMemoryQueryLogsSingle [] (some rxHit) true true none false .default
        linesC3) :=
  ⟨c1_engine_equivalence [] rxHit false false none .default ⟨0, "A", "hit"⟩
      [⟨86400, "A", "miss"⟩] (by decide) (by decide) (by decide) (by decide),
   c1_engine_equivalence [] rxHit true true none .default ⟨0, "A", "hit"⟩
      [⟨86400, "A", "miss"⟩] (by decide) (by decide) (by decide) (by decide)⟩

end IrcStats
